import Mathlib

/-!
Verification of the ORD Schema Viewer (open-resource-discovery/pr-preview,
tools/schema-viewer).  The browser application is shallowly embedded: the
mutable module-level `state` object becomes an explicit `State` structure,
JavaScript `Map`s become insertion-ordered association lists, `Set`s become
duplicate-free insertion-ordered lists, and every state-mutating function of
the graph engine (graph.js), the sidebar (sidebar.js), the parser (parser.js),
the search module (search.js) and the schema loader (config.js / app entry)
becomes a pure state-transformer.  Purely visual effects (D3 rendering, DOM
classes, the browser URL bar, tooltips) are outside the embedded state; the
embedding keeps exactly the fields of `state` that those functions read or
write.
-/

namespace SchemaViewer

/-- A relation extracted by the parser and stored on its source node
(`parser.js`, `extractRelations`).  `via` is only present on associations. -/
structure Relation where
  type : String
  target : String
  property : String
  isArray : Bool
  via : Option String
  description : String
deriving DecidableEq

/-- Items sub-object of a JSON-Schema property definition (the fields the
viewer reads: `items.$ref`, `items['x-association-target']`,
`items.description`). -/
structure SchemaItems where
  ref : Option String
  assocTargets : Option (List String)
  description : Option String
deriving DecidableEq

/-- A JSON-Schema property definition, restricted to the fields the viewer
reads: `$ref`, `items`, `x-association-target`, `description`. -/
structure PropDef where
  ref : Option String
  items : Option SchemaItems
  assocTargets : Option (List String)
  description : Option String
deriving DecidableEq

/-- A parsed node (`parser.js`, `parseSchema`).  The fields `examples`,
`xProperties`, `title` and `rawSchema` of the JavaScript object are carried
along by the source but never read by the state-mutating logic verified here,
so they are elided from the embedding. -/
structure Node where
  id : String
  name : String
  type : String
  umsType : String
  description : String
  properties : List (String × PropDef)
  required : List String
  recommended : List String
  relations : List Relation
deriving DecidableEq

/-- A displayed edge (`graph.js`).  In the source the `source`/`target`
fields are overwritten with positioned node objects by the renderer; all
state-mutating logic reads them as plain id strings, which is how they are
embedded. -/
structure Link where
  id : String
  source : String
  target : String
  type : String
  property : String
  isArray : Bool
  via : Option String
deriving DecidableEq

/-- The shared mutable `state` object (`state.js`), restricted to the fields
read or written by the verified logic.  Rendering handles (`svg`, `g`,
`simulation`, layers, tooltips) and the label/density presets are pure
view state and are elided. -/
structure State where
  nodes : List (String × Node)
  displayedNodes : List String
  displayedLinks : List Link
  selectedNode : Option String
  selectedLink : Option String
  currentSchemaName : String
deriving DecidableEq

/-- Lookup in an insertion-ordered association list (JavaScript `Map.get`). -/
def mapGet (m : List (String × α)) (k : String) : Option α :=
  (m.find? (fun p => p.1 == k)).map (·.2)

/-- Key-membership test (JavaScript `Map.has`). -/
def mapHas (m : List (String × α)) (k : String) : Bool :=
  m.any (fun p => p.1 == k)

/-- JavaScript `Map.set`: replace in place if the key exists, else append. -/
def mapSet (m : List (String × α)) (k : String) (v : α) : List (String × α) :=
  if m.any (fun p => p.1 == k) then
    m.map (fun p => if p.1 == k then (k, v) else p)
  else
    m ++ [(k, v)]

/-- JavaScript `Set.add` on an insertion-ordered duplicate-free list. -/
def addToSet (l : List String) (x : String) : List String :=
  if l.contains x then l else l ++ [x]

/-- JavaScript `a || b` for an optional string (`null`/`undefined` and the
empty string are falsy). -/
def jsOr (a : Option String) (b : String) : String :=
  match a with
  | some s => if s = "" then b else s
  | none => b

/-- The composite edge id `source-target-property` (`graph.js`). -/
def mkLinkId (source target property : String) : String :=
  source ++ "-" ++ target ++ "-" ++ property

/-- The initial `state` value of `state.js` (both selection fields null,
empty collections, default schema name). -/
def initialState : State :=
  { nodes := []
    displayedNodes := []
    displayedLinks := []
    selectedNode := none
    selectedLink := none
    currentSchemaName := "Document" }

/-! ### Sidebar selection entry points (sidebar.js) -/

/-- State effect of `selectNode` (sidebar.js lines 53-74): the selection
fields are overwritten first; everything after the `if (!node) return` guard
only touches the DOM, the URL bar and the sidebar pane. -/
def selectNode (nodeId : String) (s : State) : State :=
  { s with selectedNode := some nodeId, selectedLink := none }

/-- State effect of `selectLink` (sidebar.js lines 79-107): the selection
fields are overwritten first; the `if (!link) return` guard only gates the
DOM / URL / sidebar effects. -/
def selectLink (linkId : String) (s : State) : State :=
  { s with selectedLink := some linkId, selectedNode := none }

/-- A call to one of the two selection entry points. -/
inductive SelectionCall where
  | node (id : String)
  | link (id : String)
deriving DecidableEq

/-- Apply one selection call to the state. -/
def applySelection (s : State) (c : SelectionCall) : State :=
  match c with
  | .node id => selectNode id s
  | .link id => selectLink id s

/-- Run a sequence of selection calls. -/
def runSelections (s : State) (cs : List SelectionCall) : State :=
  cs.foldl applySelection s

/-- At most one of the two selection fields is set. -/
def selectionExclusive (s : State) : Prop :=
  s.selectedNode = none ∨ s.selectedLink = none

instance (s : State) : Decidable (selectionExclusive s) := by
  unfold selectionExclusive; infer_instance

/-- C1: starting from any state where at most one selection field is set (in
particular the initial state, where both are null), every sequence of
`selectNode` / `selectLink` calls preserves the mutual-exclusivity invariant;
moreover selecting a node always leaves `selectedLink = null` and selecting a
link always leaves `selectedNode = null`. -/
theorem selection_mutually_exclusive (cs : List SelectionCall) (s : State)
    (h : selectionExclusive s) :
    selectionExclusive (runSelections s cs) ∧
      (∀ id, (selectNode id s).selectedLink = none) ∧
      (∀ id, (selectLink id s).selectedNode = none) := by
  refine ⟨?_, fun id => rfl, fun id => rfl⟩
  induction cs generalizing s with
  | nil => exact h
  | cons c rest ih =>
    cases c with
    | node id => exact ih (selectNode id s) (Or.inr rfl)
    | link id => exact ih (selectLink id s) (Or.inl rfl)

/-- Witness for C1: a concrete two-call run from the initial state. -/
theorem selection_mutually_exclusive_witness :
    selectionExclusive initialState ∧
      selectionExclusive
        (runSelections initialState [.node "Package", .link "A-B-p"]) :=
  ⟨by decide,
    (selection_mutually_exclusive [.node "Package", .link "A-B-p"]
      initialState (by decide)).1⟩

/-- A concrete state whose `displayedLinks` is empty but whose
`selectedNode` is set: the input of the C2 counterexample. -/
def c2State : State :=
  { nodes := []
    displayedNodes := ["Package"]
    displayedLinks := []
    selectedNode := some "Package"
    selectedLink := none
    currentSchemaName := "Document" }

/-- C2 counterexample: `selectLink` with an id that matches no displayed link
does NOT leave the state unchanged — the selection fields are overwritten
before the existence check returns.  Here the state changes: `selectedNode`
goes from `Package` to null and `selectedLink` from null to the unknown id. -/
theorem selectLink_unknown_id_mutates :
    selectLink "A-B-p" c2State ≠ c2State ∧
      (selectLink "A-B-p" c2State).selectedNode = none ∧
      (selectLink "A-B-p" c2State).selectedLink = some "A-B-p" := by
  refine ⟨?_, rfl, rfl⟩
  intro h
  have : (selectLink "A-B-p" c2State).selectedNode = c2State.selectedNode := by
    rw [h]
  simp [selectLink, c2State] at this

/-- C2 amended: calling `selectLink` with a link id that matches no entry of
`state.displayedLinks` changes nothing except the two selection fields,
which become `selectedLink = linkId` and `selectedNode = null`; the
rendering / URL / sidebar effects are skipped by the early return. -/
theorem selectLink_unknown_id_only_selection (s : State) (linkId : String)
    (h : ∀ l ∈ s.displayedLinks, l.id ≠ linkId) :
    selectLink linkId s =
      { s with selectedLink := some linkId, selectedNode := none } :=
  rfl

/-- Witness for the amended C2 at a concrete state and id. -/
theorem selectLink_unknown_id_only_selection_witness :
    (∀ l ∈ c2State.displayedLinks, l.id ≠ "A-B-p") ∧
      selectLink "A-B-p" c2State =
        { c2State with selectedLink := some "A-B-p", selectedNode := none } :=
  ⟨by decide, selectLink_unknown_id_only_selection c2State "A-B-p" (by decide)⟩

/-! ### Graph engine (graph.js) -/

/-- The link object pushed for a forward relation `rel` of node `nodeId`
(the object literal repeated at every forward push site of graph.js). -/
def relLink (nodeId : String) (rel : Relation) : Link :=
  { id := mkLinkId nodeId rel.target rel.property
    source := nodeId
    target := rel.target
    type := rel.type
    property := rel.property
    isArray := rel.isArray
    via := rel.via }

/-- A reverse relation record (`graph.js`, `getReverseRelations`). -/
structure RevRel where
  source : String
  sourceName : String
  type : String
  property : String
  isArray : Bool
  via : Option String
  description : String
deriving DecidableEq

/-- The link object pushed for a reverse relation of `nodeId` (the object
literal at the reverse push sites of graph.js). -/
def mkRevLink (nodeId : String) (rev : RevRel) : Link :=
  { id := mkLinkId rev.source nodeId rev.property
    source := rev.source
    target := nodeId
    type := rev.type
    property := rev.property
    isArray := rev.isArray
    via := rev.via }

/-- The `find existing link by composite id / push if absent / set added`
step shared by `autoAddReverseLinks`, `autoAddForwardLinks` and
`expandAllNeighbors`. -/
def addLinkIfAbsentFlag (lnk : Link) (added : Bool) (s : State) :
    Bool × State :=
  if s.displayedLinks.any (fun l => l.id == lnk.id) then (added, s)
  else (true, { s with displayedLinks := s.displayedLinks ++ [lnk] })

/-- The `add to displayed set if absent / set added` step of
`expandAllNeighbors`. -/
def addNodeIfAbsentFlag (x : String) (added : Bool) (s : State) :
    Bool × State :=
  if s.displayedNodes.contains x then (added, s)
  else (true, { s with displayedNodes := addToSet s.displayedNodes x })

/-- One step of the relation loop of `expandNode` (graph.js lines 230-257),
minus the recursive call: push the edge for `relation` if no displayed link
with the same (source, target, property) triple exists.  The dedup check of
`expandNode` is by the triple, not by the composite id. -/
def expandPushLink (nodeId : String) (rel : Relation) (s : State) : State :=
  if s.displayedLinks.any (fun l =>
      l.source == nodeId && l.target == rel.target &&
        l.property == rel.property) then s
  else { s with displayedLinks := s.displayedLinks ++ [relLink nodeId rel] }

/-- One iteration of the relation loop of `expandNode` (graph.js lines
230-256), parameterized by the recursive expansion used for not-yet-displayed
targets: if the target is a parsed node, add the edge if its triple is new,
then recurse into the target if it is not yet displayed. -/
def expandStepF (recur : String → State → State) (nodeId : String)
    (rel : Relation) (s : State) : State :=
  if mapHas s.nodes rel.target then
    if (expandPushLink nodeId rel s).displayedNodes.contains rel.target then
      expandPushLink nodeId rel s
    else recur rel.target (expandPushLink nodeId rel s)
  else s

/-- The `for (const relation of node.relations)` loop of `expandNode`. -/
def expandRelsF (recur : String → State → State) (nodeId : String) :
    List Relation → State → State
  | [], s => s
  | rel :: rest, s =>
    expandRelsF recur nodeId rest (expandStepF recur nodeId rel s)

/-- `expandNode` (graph.js lines 222-258): bail out if the id is not in the
parsed node map, add the id to the displayed set, and if `depth > 0` walk the
node's relations, recursing into new targets with `depth - 1`. -/
def expandNode (nodeId : String) (depth : Nat) (s : State) : State :=
  match mapGet s.nodes nodeId with
  | none => s
  | some node =>
    match depth with
    | 0 => { s with displayedNodes := addToSet s.displayedNodes nodeId }
    | d + 1 =>
      expandRelsF (fun m s2 => expandNode m d s2) nodeId node.relations
        { s with displayedNodes := addToSet s.displayedNodes nodeId }

/-- The relation-loop iteration at remaining depth `d + 1` (so the recursive
call uses depth `d`). -/
def expandStep (nodeId : String) (d : Nat) (rel : Relation) (s : State) :
    State :=
  expandStepF (fun m s2 => expandNode m d s2) nodeId rel s

/-- The relation loop at remaining depth `d + 1`. -/
def expandRels (nodeId : String) (d : Nat) (rels : List Relation)
    (s : State) : State :=
  expandRelsF (fun m s2 => expandNode m d s2) nodeId rels s

theorem expandRels_nil_eq (nodeId : String) (d : Nat) (s : State) :
    expandRels nodeId d [] s = s :=
  rfl

theorem expandRels_cons_eq (nodeId : String) (d : Nat) (rel : Relation)
    (rest : List Relation) (s : State) :
    expandRels nodeId d (rel :: rest) s =
      expandRels nodeId d rest (expandStep nodeId d rel s) :=
  rfl

theorem expandStep_eq (nodeId : String) (d : Nat) (rel : Relation)
    (s : State) :
    expandStep nodeId d rel s =
      if mapHas s.nodes rel.target then
        (if (expandPushLink nodeId rel s).displayedNodes.contains rel.target
          then expandPushLink nodeId rel s
          else expandNode rel.target d (expandPushLink nodeId rel s))
      else s :=
  rfl

theorem expandNode_eq (nodeId : String) (depth : Nat) (s : State) :
    expandNode nodeId depth s =
      match mapGet s.nodes nodeId with
      | none => s
      | some node =>
        match depth with
        | 0 => { s with displayedNodes := addToSet s.displayedNodes nodeId }
        | d + 1 =>
          expandRels nodeId d node.relations
            { s with displayedNodes := addToSet s.displayedNodes nodeId } := by
  unfold expandRels
  rw [expandNode]

/-- `getReverseRelations` (graph.js lines 263-285): scan every entry of the
node map EXCEPT `nodeId` itself (`if (sourceId === nodeId) continue`) and
collect one record per relation targeting `nodeId`. -/
def getReverseRelations (nodeId : String) (s : State) : List RevRel :=
  s.nodes.flatMap (fun p =>
    if p.1 == nodeId then []
    else
      (p.2.relations.filter (fun r => r.target == nodeId)).map (fun r =>
        { source := p.1
          sourceName := p.2.name
          type := r.type
          property := r.property
          isArray := r.isArray
          via := r.via
          description := r.description }))

/-- The loop of `autoAddReverseLinks` (graph.js lines 294-312), threading
the `addedLinks` flag. -/
def autoRevGo (nodeId : String) (revs : List RevRel) (added : Bool)
    (s : State) : Bool × State :=
  match revs with
  | [] => (added, s)
  | rev :: rest =>
    if s.displayedNodes.contains rev.source then
      autoRevGo nodeId rest
        (addLinkIfAbsentFlag (mkRevLink nodeId rev) added s).1
        (addLinkIfAbsentFlag (mkRevLink nodeId rev) added s).2
    else autoRevGo nodeId rest added s

/-- `autoAddReverseLinks` (graph.js lines 290-315): for every node whose
relations target `nodeId` and which is already displayed, add the edge if a
link with its composite id is absent; return whether any edge was added. -/
def autoAddReverseLinks (nodeId : String) (s : State) : Bool × State :=
  autoRevGo nodeId (getReverseRelations nodeId s) false s

/-- The loop of `autoAddForwardLinks` (graph.js lines 325-343). -/
def autoFwdGo (nodeId : String) (rels : List Relation) (added : Bool)
    (s : State) : Bool × State :=
  match rels with
  | [] => (added, s)
  | rel :: rest =>
    if s.displayedNodes.contains rel.target then
      autoFwdGo nodeId rest
        (addLinkIfAbsentFlag (relLink nodeId rel) added s).1
        (addLinkIfAbsentFlag (relLink nodeId rel) added s).2
    else autoFwdGo nodeId rest added s

/-- `autoAddForwardLinks` (graph.js lines 320-346): symmetric to
`autoAddReverseLinks`, from `nodeId` to already-displayed targets. -/
def autoAddForwardLinks (nodeId : String) (s : State) : Bool × State :=
  match mapGet s.nodes nodeId with
  | none => (false, s)
  | some node => autoFwdGo nodeId node.relations false s

/-- `addRelationToGraph` (graph.js lines 351-379): add the target node if
new, add the edge if its composite id is absent, cascade
`autoAddReverseLinks` on a newly revealed target, then (via the
`state.onNodeSelect` callback installed by the app entry) select the
target.  `updateGraph` is pure rendering and not part of the state. -/
def addRelationToGraph (sourceId : String) (rel : Relation) (s : State) :
    State :=
  if s.displayedNodes.contains rel.target then
    selectNode rel.target
      (addLinkIfAbsentFlag (relLink sourceId rel) false s).2
  else
    selectNode rel.target
      (autoAddReverseLinks rel.target
        (addLinkIfAbsentFlag (relLink sourceId rel) false
          { s with displayedNodes := addToSet s.displayedNodes rel.target }).2).2

/-- Forward half of `expandAllNeighbors` (graph.js lines 423-449): add each
valid relation target to the displayed set and add the edge if its composite
id is absent. -/
def expandAllFwdGo (nodeId : String) (rels : List Relation) (added : Bool)
    (s : State) : Bool × State :=
  match rels with
  | [] => (added, s)
  | rel :: rest =>
    if mapHas s.nodes rel.target then
      expandAllFwdGo nodeId rest
        (addLinkIfAbsentFlag (relLink nodeId rel)
          (addNodeIfAbsentFlag rel.target added s).1
          (addNodeIfAbsentFlag rel.target added s).2).1
        (addLinkIfAbsentFlag (relLink nodeId rel)
          (addNodeIfAbsentFlag rel.target added s).1
          (addNodeIfAbsentFlag rel.target added s).2).2
    else expandAllFwdGo nodeId rest added s

/-- Reverse half of `expandAllNeighbors` (graph.js lines 451-473): add each
reverse source to the displayed set and add the edge if its composite id is
absent. -/
def expandAllRevGo (nodeId : String) (revs : List RevRel) (added : Bool)
    (s : State) : Bool × State :=
  match revs with
  | [] => (added, s)
  | rev :: rest =>
    expandAllRevGo nodeId rest
      (addLinkIfAbsentFlag (mkRevLink nodeId rev)
        (addNodeIfAbsentFlag rev.source added s).1
        (addNodeIfAbsentFlag rev.source added s).2).1
      (addLinkIfAbsentFlag (mkRevLink nodeId rev)
        (addNodeIfAbsentFlag rev.source added s).1
        (addNodeIfAbsentFlag rev.source added s).2).2

/-- `expandAllNeighbors` (graph.js lines 420-478): one-hop union of forward
and reverse expansion; the final `updateGraph` is rendering only. -/
def expandAllNeighbors (nodeId : String) (s : State) : State :=
  match mapGet s.nodes nodeId with
  | some node =>
    (expandAllRevGo nodeId
      (getReverseRelations nodeId (expandAllFwdGo nodeId node.relations false s).2)
      (expandAllFwdGo nodeId node.relations false s).1
      (expandAllFwdGo nodeId node.relations false s).2).2
  | none =>
    (expandAllRevGo nodeId (getReverseRelations nodeId s) false s).2

/-- `initializeGraph` (graph.js lines 201-217): clear the displayed sets and
either show the start node alone (depth 0, no existence check) or expand it.
The URL `node` parameter is passed in explicitly. -/
def initializeGraph (depth : Nat) (startNodeId urlNode : Option String)
    (s : State) : State :=
  if depth = 0 then
    { s with
        displayedNodes := addToSet []
          (jsOr startNodeId (jsOr urlNode s.currentSchemaName))
        displayedLinks := [] }
  else
    expandNode (jsOr startNodeId (jsOr urlNode s.currentSchemaName)) depth
      { s with displayedNodes := [], displayedLinks := [] }

/-- Displayed-set part of the URL link restoration: add an id without any
node-map existence check (config.js lines 127-134). -/
def addNodeIfAbsent (x : String) (s : State) : State :=
  if s.displayedNodes.contains x then s
  else { s with displayedNodes := addToSet s.displayedNodes x }

/-- Link re-creation part of the URL link restoration (config.js lines
136-156): if no displayed link carries the composite id, look up the source
node and its matching relation and push the link. -/
def restoreLinkCreate (linkParam sourceId targetId property : String)
    (s : State) : State :=
  if s.displayedLinks.any (fun l => l.id == linkParam) then s
  else
    match mapGet s.nodes sourceId with
    | some sourceNode =>
      match sourceNode.relations.find? (fun r =>
          r.target == targetId && r.property == property) with
      | some relation =>
        { s with displayedLinks := s.displayedLinks ++
            [{ id := linkParam
               source := sourceId
               target := targetId
               type := relation.type
               property := relation.property
               isArray := relation.isArray
               via := relation.via }] }
      | none => s
    | none => s

/-- JavaScript `String.prototype.split` with a one-character separator:
group the characters between separator occurrences (the empty string splits
to `[""]`, like in JavaScript). -/
def splitCharList (c : Char) : List Char → List (List Char)
  | [] => [[]]
  | ch :: rest =>
    match splitCharList c rest with
    | [] => [[ch]]
    | grp :: grps =>
      if ch = c then [] :: grp :: grps else (ch :: grp) :: grps

/-- `linkParam.split('-')` of config.js. -/
def jsSplit (sep : Char) (s : String) : List String :=
  (splitCharList sep s.toList).map (fun l => String.mk l)

/-- JavaScript `Array.prototype.join` with a string separator. -/
def joinWith (sep : String) : List String → String
  | [] => ""
  | x :: xs => xs.foldl (fun acc y => acc ++ sep ++ y) x

/-- The `link` URL-parameter restoration block of `loadSchema`
(config.js lines 119-158): split the composite id on `-`, add source and
target to the displayed set WITHOUT checking the parsed node map, re-create
the link if the source node has the matching relation, then select it. -/
def restoreLinkFromURL (linkParam : String) (s : State) : State :=
  match jsSplit '-' linkParam with
  | sourceId :: targetId :: p0 :: prest =>
    selectLink linkParam
      (restoreLinkCreate linkParam sourceId targetId
        (joinWith "-" (p0 :: prest))
        (addNodeIfAbsent targetId (addNodeIfAbsent sourceId s)))
  | _ => s

/-! ### Helper lemmas about the set / link primitives -/

theorem mem_addToSet {l : List String} {x y : String} :
    y ∈ addToSet l x ↔ y ∈ l ∨ y = x := by
  unfold addToSet
  split
  next h =>
    have hx : x ∈ l := by simpa using h
    constructor
    · exact Or.inl
    · rintro (hy | rfl)
      · exact hy
      · exact hx
  next h =>
    simp

theorem self_mem_addToSet {l : List String} {x : String} : x ∈ addToSet l x :=
  mem_addToSet.mpr (Or.inr rfl)

theorem addToSet_of_mem {l : List String} {x : String} (h : x ∈ l) :
    addToSet l x = l := by
  unfold addToSet
  simp [h]

theorem addToSet_append {l : List String} {x : String} :
    ∃ t, addToSet l x = l ++ t := by
  unfold addToSet
  split
  · exact ⟨[], by simp⟩
  · exact ⟨[x], rfl⟩

/-- `s'` extends `s`: the graph-engine operations only append to the two
displayed collections and leave every other state field unchanged. -/
structure Extends (s s' : State) : Prop where
  nodes_eq : s'.nodes = s.nodes
  schema_eq : s'.currentSchemaName = s.currentSchemaName
  selNode_eq : s'.selectedNode = s.selectedNode
  selLink_eq : s'.selectedLink = s.selectedLink
  disp : ∃ t, s'.displayedNodes = s.displayedNodes ++ t
  links : ∃ u, s'.displayedLinks = s.displayedLinks ++ u

theorem Extends.refl (s : State) : Extends s s :=
  ⟨rfl, rfl, rfl, rfl, ⟨[], by simp⟩, ⟨[], by simp⟩⟩

theorem Extends.trans {s1 s2 s3 : State} (h12 : Extends s1 s2)
    (h23 : Extends s2 s3) : Extends s2 s3 → Extends s1 s3 := by
  intro _
  obtain ⟨t1, ht1⟩ := h12.disp
  obtain ⟨t2, ht2⟩ := h23.disp
  obtain ⟨u1, hu1⟩ := h12.links
  obtain ⟨u2, hu2⟩ := h23.links
  exact ⟨h23.nodes_eq.trans h12.nodes_eq,
    h23.schema_eq.trans h12.schema_eq,
    h23.selNode_eq.trans h12.selNode_eq,
    h23.selLink_eq.trans h12.selLink_eq,
    ⟨t1 ++ t2, by rw [ht2, ht1, List.append_assoc]⟩,
    ⟨u1 ++ u2, by rw [hu2, hu1, List.append_assoc]⟩⟩

theorem Extends.step {s1 s2 s3 : State} (h12 : Extends s1 s2)
    (h23 : Extends s2 s3) : Extends s1 s3 :=
  Extends.trans h12 h23 h23

theorem Extends.mem_displayed {s s' : State} (h : Extends s s') {x : String}
    (hx : x ∈ s.displayedNodes) : x ∈ s'.displayedNodes := by
  obtain ⟨t, ht⟩ := h.disp
  rw [ht]
  exact List.mem_append_left _ hx

theorem Extends.mem_links {s s' : State} (h : Extends s s') {l : Link}
    (hl : l ∈ s.displayedLinks) : l ∈ s'.displayedLinks := by
  obtain ⟨u, hu⟩ := h.links
  rw [hu]
  exact List.mem_append_left _ hl

/-- An `Extends` goal under a JavaScript-style conditional. -/
theorem extends_ite {s : State} {c : Prop} [Decidable c] {a b : State}
    (ha : Extends s a) (hb : Extends s b) : Extends s (if c then a else b) := by
  split
  · exact ha
  · exact hb

theorem extends_addDisplayed (s : State) (x : String) :
    Extends s { s with displayedNodes := addToSet s.displayedNodes x } :=
  ⟨rfl, rfl, rfl, rfl, addToSet_append, ⟨[], by simp⟩⟩

theorem extends_pushLink (s : State) (lnk : Link) :
    Extends s { s with displayedLinks := s.displayedLinks ++ [lnk] } :=
  ⟨rfl, rfl, rfl, rfl, ⟨[], by simp⟩, ⟨[lnk], rfl⟩⟩

theorem extends_expandPushLink (n : String) (rel : Relation) (s : State) :
    Extends s (expandPushLink n rel s) := by
  unfold expandPushLink
  split
  · exact Extends.refl s
  · exact extends_pushLink s _

theorem expandPushLink_nodes (n : String) (rel : Relation) (s : State) :
    (expandPushLink n rel s).nodes = s.nodes :=
  (extends_expandPushLink n rel s).nodes_eq

/-- The graph-engine recursion only extends the state. -/
theorem expand_extends (d : Nat) :
    (∀ n s, Extends s (expandNode n d s)) ∧
      (∀ n rel s, Extends s (expandStep n d rel s)) ∧
      (∀ n rels s, Extends s (expandRels n d rels s)) := by
  induction d with
  | zero =>
    have hQ : ∀ n s, Extends s (expandNode n 0 s) := by
      intro n s
      rw [expandNode_eq]
      cases mapGet s.nodes n with
      | none => exact Extends.refl s
      | some node => exact extends_addDisplayed s n
    have hS : ∀ n rel s, Extends s (expandStep n 0 rel s) := by
      intro n rel s
      rw [expandStep_eq]
      exact extends_ite (extends_ite (extends_expandPushLink n rel s)
        (Extends.step (extends_expandPushLink n rel s) (hQ _ _)))
        (Extends.refl s)
    refine ⟨hQ, hS, ?_⟩
    intro n rels
    induction rels with
    | nil =>
      intro s
      rw [expandRels_nil_eq]
      exact Extends.refl s
    | cons rel rest ih =>
      intro s
      rw [expandRels_cons_eq]
      exact Extends.step (hS n rel s) (ih _)
  | succ d ihd =>
    have hQ : ∀ n s, Extends s (expandNode n (d + 1) s) := by
      intro n s
      rw [expandNode_eq]
      cases h : mapGet s.nodes n with
      | none => exact Extends.refl s
      | some node =>
        exact Extends.step (extends_addDisplayed s n)
          (ihd.2.2 n node.relations _)
    have hS : ∀ n rel s, Extends s (expandStep n (d + 1) rel s) := by
      intro n rel s
      rw [expandStep_eq]
      exact extends_ite (extends_ite (extends_expandPushLink n rel s)
        (Extends.step (extends_expandPushLink n rel s) (hQ _ _)))
        (Extends.refl s)
    refine ⟨hQ, hS, ?_⟩
    intro n rels
    induction rels with
    | nil =>
      intro s
      rw [expandRels_nil_eq]
      exact Extends.refl s
    | cons rel rest ih =>
      intro s
      rw [expandRels_cons_eq]
      exact Extends.step (hS n rel s) (ih _)

theorem expandNode_extends (n : String) (d : Nat) (s : State) :
    Extends s (expandNode n d s) :=
  (expand_extends d).1 n s

theorem expandStep_extends (n : String) (d : Nat) (rel : Relation)
    (s : State) : Extends s (expandStep n d rel s) :=
  (expand_extends d).2.1 n rel s

theorem expandRels_extends (n : String) (d : Nat) (rels : List Relation)
    (s : State) : Extends s (expandRels n d rels s) :=
  (expand_extends d).2.2 n rels s

/-! ### Link counting -/

/-- Number of displayed links with a given (source, target, property)
triple — the dedup key used by `expandNode`. -/
def countTriple (source target property : String) (links : List Link) : Nat :=
  (links.filter (fun l =>
    l.source == source && l.target == target && l.property == property)).length

/-- Number of displayed links with a given composite id — the dedup key used
by every other add-edge operation. -/
def countId (lid : String) (links : List Link) : Nat :=
  (links.filter (fun l => l.id == lid)).length

theorem countTriple_append (a b : List Link) (so t p : String) :
    countTriple so t p (a ++ b) = countTriple so t p a + countTriple so t p b := by
  simp [countTriple, List.filter_append]

theorem countId_append (a b : List Link) (lid : String) :
    countId lid (a ++ b) = countId lid a + countId lid b := by
  simp [countId, List.filter_append]

theorem anyId_iff_countId {links : List Link} {lid : String} :
    links.any (fun l => l.id == lid) = true ↔ 0 < countId lid links := by
  simp [countId, List.length_pos_iff_exists_mem, List.any_eq_true,
    List.mem_filter]

theorem countId_le_of_append {a b : List Link} {lid : String} :
    countId lid a ≤ countId lid (a ++ b) := by
  rw [countId_append]
  exact Nat.le_add_right _ _

theorem countTriple_singleton (so t p : String) (lnk : Link) :
    countTriple so t p [lnk] =
      if lnk.source = so ∧ lnk.target = t ∧ lnk.property = p then 1 else 0 := by
  simp only [countTriple, List.filter_cons, List.filter_nil]
  by_cases h1 : lnk.source = so <;> by_cases h2 : lnk.target = t <;>
    by_cases h3 : lnk.property = p <;> simp [h1, h2, h3]

theorem countId_singleton (lid : String) (lnk : Link) :
    countId lid [lnk] = if lnk.id = lid then 1 else 0 := by
  simp only [countId, List.filter_cons, List.filter_nil]
  by_cases h : lnk.id = lid <;> simp [h]

theorem anyTriple_iff {links : List Link} {so t p : String} :
    links.any (fun l =>
        l.source == so && l.target == t && l.property == p) = true ↔
      0 < countTriple so t p links := by
  simp [countTriple, List.length_pos_iff_exists_mem, List.any_eq_true,
    List.mem_filter]

theorem countTriple_pos_iff {links : List Link} {so t p : String} :
    0 < countTriple so t p links ↔
      ∃ l ∈ links, l.source = so ∧ l.target = t ∧ l.property = p := by
  simp [countTriple, List.length_pos_iff_exists_mem, List.mem_filter,
    and_assoc]

theorem mapHas_iff {m : List (String × α)} {k : String} :
    mapHas m k = true ↔ ∃ v, mapGet m k = some v := by
  constructor
  · intro h
    obtain ⟨x, hx, hpx⟩ := List.any_eq_true.mp h
    cases hf : m.find? (fun p => p.1 == k) with
    | none => exact absurd (List.find?_eq_none.mp hf x hx) (by simp [hpx])
    | some y => exact ⟨y.2, by simp [mapGet, hf]⟩
  · rintro ⟨v, hv⟩
    simp only [mapGet, Option.map_eq_some'] at hv
    obtain ⟨y, hy, _⟩ := hv
    have hp : (y.1 == k) = true := by
      have := List.find?_some hy
      simpa using this
    exact List.any_eq_true.mpr ⟨y, List.mem_of_find?_eq_some hy, hp⟩

theorem mapHas_of_mapGet {m : List (String × α)} {k : String} {v : α}
    (h : mapGet m k = some v) : mapHas m k = true :=
  mapHas_iff.mpr ⟨v, h⟩

/-- `expandNode` with depth 0 only touches the displayed-node set. -/
theorem expandNode_zero_links (m : String) (s : State) :
    (expandNode m 0 s).displayedLinks = s.displayedLinks := by
  rw [expandNode_eq]
  cases mapGet s.nodes m <;> rfl

/-- `expandNode` with depth 0 is an existence-checked displayed-set insert. -/
theorem expandNode_zero_displayed (m : String) (s : State) :
    (expandNode m 0 s).displayedNodes =
      if mapHas s.nodes m = true then addToSet s.displayedNodes m
      else s.displayedNodes := by
  rw [expandNode_eq]
  cases hg : mapGet s.nodes m with
  | none =>
    rw [if_neg]
    intro hh
    obtain ⟨v, hv⟩ := mapHas_iff.mp hh
    rw [hg] at hv
    exact Option.noConfusion hv
  | some node =>
    rw [if_pos (mapHas_of_mapGet hg)]

theorem expandPushLink_of_present {nodeId : String} {rel : Relation}
    {s : State}
    (h : 0 < countTriple nodeId rel.target rel.property s.displayedLinks) :
    expandPushLink nodeId rel s = s := by
  rw [expandPushLink, if_pos (anyTriple_iff.mpr h)]

theorem expandPushLink_of_absent {nodeId : String} {rel : Relation} {s : State}
    (h : countTriple nodeId rel.target rel.property s.displayedLinks = 0) :
    expandPushLink nodeId rel s =
      { s with displayedLinks := s.displayedLinks ++ [relLink nodeId rel] } := by
  rw [expandPushLink, if_neg]
  intro hc
  have := anyTriple_iff.mp hc
  rw [h] at this
  exact Nat.lt_irrefl 0 this

theorem expandPushLink_displayed (nodeId : String) (rel : Relation)
    (s : State) :
    (expandPushLink nodeId rel s).displayedNodes = s.displayedNodes := by
  rw [expandPushLink]
  split
  · rfl
  · rfl

/-- Pushing a link whose source is `m ≠ N` never changes a source-`N`
triple count. -/
theorem expandPushLink_foreign_count {N t p m : String} {rel : Relation}
    {s : State} (hm : ¬ m = N) :
    countTriple N t p (expandPushLink m rel s).displayedLinks =
      countTriple N t p s.displayedLinks := by
  rw [expandPushLink]
  split
  · rfl
  · show countTriple N t p (s.displayedLinks ++ [relLink m rel]) = _
    rw [countTriple_append, countTriple_singleton]
    rw [if_neg (by simp [relLink]; intro h; exact absurd h hm)]
    rfl

/-- No call of the expansion recursion on a node `m ≠ N` can change the
count of links with source `N`, as long as `N` is already displayed: links
are only pushed with the currently-expanded node as source, and the
recursion never re-enters a displayed node. -/
theorem expand_no_foreign_source (N t p : String) (d : Nat) :
    (∀ m s, N ∈ s.displayedNodes → ¬ m = N →
      countTriple N t p (expandNode m d s).displayedLinks =
        countTriple N t p s.displayedLinks) ∧
      (∀ m rel s, N ∈ s.displayedNodes → ¬ m = N →
        countTriple N t p (expandStep m d rel s).displayedLinks =
          countTriple N t p s.displayedLinks) ∧
      (∀ m rels s, N ∈ s.displayedNodes → ¬ m = N →
        countTriple N t p (expandRels m d rels s).displayedLinks =
          countTriple N t p s.displayedLinks) := by
  induction d with
  | zero =>
    have hQ : ∀ m s, N ∈ s.displayedNodes → ¬ m = N →
        countTriple N t p (expandNode m 0 s).displayedLinks =
          countTriple N t p s.displayedLinks := by
      intro m s _ _
      rw [expandNode_zero_links]
    have hS : ∀ m rel s, N ∈ s.displayedNodes → ¬ m = N →
        countTriple N t p (expandStep m 0 rel s).displayedLinks =
          countTriple N t p s.displayedLinks := by
      intro m rel s hN hm
      rw [expandStep_eq]
      split
      · split
        · exact expandPushLink_foreign_count hm
        · rw [expandNode_zero_links]
          exact expandPushLink_foreign_count hm
      · rfl
    refine ⟨hQ, hS, ?_⟩
    intro m rels
    induction rels with
    | nil =>
      intro s _ _
      rw [expandRels_nil_eq]
    | cons rel rest ih =>
      intro s hN hm
      rw [expandRels_cons_eq]
      rw [ih _ ((expandStep_extends m 0 rel s).mem_displayed hN) hm]
      exact hS m rel s hN hm
  | succ d ihd =>
    have hQ : ∀ m s, N ∈ s.displayedNodes → ¬ m = N →
        countTriple N t p (expandNode m (d + 1) s).displayedLinks =
          countTriple N t p s.displayedLinks := by
      intro m s hN hm
      rw [expandNode_eq]
      cases hg : mapGet s.nodes m with
      | none => rfl
      | some node =>
        exact ihd.2.2 m node.relations _ (mem_addToSet.mpr (Or.inl hN)) hm
    have hS : ∀ m rel s, N ∈ s.displayedNodes → ¬ m = N →
        countTriple N t p (expandStep m (d + 1) rel s).displayedLinks =
          countTriple N t p s.displayedLinks := by
      intro m rel s hN hm
      rw [expandStep_eq]
      split
      · split
        next hcont =>
          exact expandPushLink_foreign_count hm
        next hcont =>
          have hNd : N ∈ (expandPushLink m rel s).displayedNodes := by
            rw [expandPushLink_displayed]
            exact hN
          have htN : ¬ rel.target = N := by
            intro hEq
            rw [hEq] at hcont
            exact hcont (by simpa using hNd)
          rw [hQ rel.target _ hNd htN]
          exact expandPushLink_foreign_count hm
      · rfl
    refine ⟨hQ, hS, ?_⟩
    intro m rels
    induction rels with
    | nil =>
      intro s _ _
      rw [expandRels_nil_eq]
    | cons rel rest ih =>
      intro s hN hm
      rw [expandRels_cons_eq]
      rw [ih _ ((expandStep_extends m (d + 1) rel s).mem_displayed hN) hm]
      exact hS m rel s hN hm

/-- Once a source-`N` triple is displayed, walking `N`'s relation list never
duplicates it. -/
theorem expand_triple_preserved (N t p : String) (d : Nat) :
    (∀ rel s, N ∈ s.displayedNodes →
        0 < countTriple N t p s.displayedLinks →
      countTriple N t p (expandStep N d rel s).displayedLinks =
        countTriple N t p s.displayedLinks) ∧
      (∀ rels s, N ∈ s.displayedNodes →
          0 < countTriple N t p s.displayedLinks →
        countTriple N t p (expandRels N d rels s).displayedLinks =
          countTriple N t p s.displayedLinks) := by
  have hS : ∀ rel s, N ∈ s.displayedNodes →
      0 < countTriple N t p s.displayedLinks →
      countTriple N t p (expandStep N d rel s).displayedLinks =
        countTriple N t p s.displayedLinks := by
    intro rel s hN hpos
    rw [expandStep_eq]
    split
    · have hpush : countTriple N t p
          (expandPushLink N rel s).displayedLinks =
            countTriple N t p s.displayedLinks := by
        by_cases hmatch : rel.target = t ∧ rel.property = p
        · rw [expandPushLink_of_present]
          rw [hmatch.1, hmatch.2]
          exact hpos
        · rw [expandPushLink]
          split
          · rfl
          · show countTriple N t p (s.displayedLinks ++ [relLink N rel]) = _
            rw [countTriple_append, countTriple_singleton,
              if_neg (by simpa [relLink] using hmatch)]
            rfl
      split
      next hcont => exact hpush
      next hcont =>
        have hNd : N ∈ (expandPushLink N rel s).displayedNodes := by
          rw [expandPushLink_displayed]
          exact hN
        have htN : ¬ rel.target = N := by
          intro hEq
          rw [hEq] at hcont
          exact hcont (by simpa using hNd)
        rw [(expand_no_foreign_source N t p d).1 rel.target _ hNd htN]
        exact hpush
    · rfl
  refine ⟨hS, ?_⟩
  intro rels
  induction rels with
  | nil =>
    intro s _ _
    rw [expandRels_nil_eq]
  | cons rel rest ih =>
    intro s hN hpos
    rw [expandRels_cons_eq]
    have hstep := hS rel s hN hpos
    rw [ih _ ((expandStep_extends N d rel s).mem_displayed hN)
      (by rw [hstep]; exact hpos)]
    exact hstep

/-- Walking `N`'s relation list from a state where the (t, p) triple is not
yet displayed, with a relation for (t, p) in the list and `t` a parsed node,
displays the triple exactly once. -/
theorem expand_triple_establish (N t p : String) (d : Nat) :
    ∀ (rels : List Relation) (s : State), N ∈ s.displayedNodes →
      mapHas s.nodes t = true →
      countTriple N t p s.displayedLinks = 0 →
      (∃ r ∈ rels, r.target = t ∧ r.property = p) →
      countTriple N t p (expandRels N d rels s).displayedLinks = 1 := by
  intro rels
  induction rels with
  | nil =>
    intro s _ _ _ hex
    obtain ⟨r, hr, _⟩ := hex
    exact absurd hr (List.not_mem_nil r)
  | cons rel rest ih =>
    intro s hN hhas hzero hex
    rw [expandRels_cons_eq]
    by_cases hmatch : rel.target = t ∧ rel.property = p
    · have hone : countTriple N t p (expandStep N d rel s).displayedLinks = 1 ∧
          N ∈ (expandStep N d rel s).displayedNodes := by
        rw [expandStep_eq]
        rw [if_pos (by rw [hmatch.1]; exact hhas)]
        have hpushed : countTriple N t p
            (expandPushLink N rel s).displayedLinks = 1 := by
          rw [expandPushLink_of_absent (by rw [hmatch.1, hmatch.2]; exact hzero)]
          show countTriple N t p (s.displayedLinks ++ [relLink N rel]) = 1
          rw [countTriple_append, countTriple_singleton,
            if_pos (by simp [relLink, hmatch.1, hmatch.2]), hzero]
        have hNd : N ∈ (expandPushLink N rel s).displayedNodes := by
          rw [expandPushLink_displayed]
          exact hN
        split
        next hcont => exact ⟨hpushed, hNd⟩
        next hcont =>
          have htN : ¬ rel.target = N := by
            intro hEq
            rw [hEq] at hcont
            exact hcont (by simpa using hNd)
          refine ⟨?_, (expandNode_extends rel.target d _).mem_displayed hNd⟩
          rw [(expand_no_foreign_source N t p d).1 rel.target _ hNd htN]
          exact hpushed
      rw [(expand_triple_preserved N t p d).2 rest _ hone.2
        (by rw [hone.1]; exact Nat.one_pos)]
      exact hone.1
    · have hstepzero : countTriple N t p
          (expandStep N d rel s).displayedLinks = 0 := by
        rw [expandStep_eq]
        split
        · have hpush : countTriple N t p
              (expandPushLink N rel s).displayedLinks = 0 := by
            rw [expandPushLink]
            split
            · exact hzero
            · show countTriple N t p (s.displayedLinks ++ [relLink N rel]) = 0
              rw [countTriple_append, countTriple_singleton,
                if_neg (by simpa [relLink] using hmatch), hzero]
          split
          next hcont => exact hpush
          next hcont =>
            have hNd : N ∈ (expandPushLink N rel s).displayedNodes := by
              rw [expandPushLink_displayed]
              exact hN
            have htN : ¬ rel.target = N := by
              intro hEq
              rw [hEq] at hcont
              exact hcont (by simpa using hNd)
            rw [(expand_no_foreign_source N t p d).1 rel.target _ hNd htN]
            exact hpush
        · exact hzero
      have hexr : ∃ r ∈ rest, r.target = t ∧ r.property = p := by
        obtain ⟨r, hr, hrp⟩ := hex
        rcases List.mem_cons.mp hr with rfl | hr2
        · exact absurd hrp hmatch
        · exact ⟨r, hr2, hrp⟩
      refine ih _ ((expandStep_extends N d rel s).mem_displayed hN) ?_
        hstepzero hexr
      rw [(expandStep_extends N d rel s).nodes_eq]
      exact hhas

theorem expandStep_zero_displayed (N : String) (rel : Relation) (s : State)
    (x : String) :
    x ∈ (expandStep N 0 rel s).displayedNodes ↔
      x ∈ s.displayedNodes ∨
        (mapHas s.nodes rel.target = true ∧ x = rel.target) := by
  rw [expandStep_eq]
  split
  next hhas =>
    split
    next hcont =>
      rw [expandPushLink_displayed]
      constructor
      · exact fun h => Or.inl h
      · rintro (h | ⟨_, rfl⟩)
        · exact h
        · rw [expandPushLink_displayed] at hcont
          simpa using hcont
    next hcont =>
      have hn : mapHas (expandPushLink N rel s).nodes rel.target = true := by
        rw [expandPushLink_nodes]
        exact hhas
      have hd := expandNode_zero_displayed rel.target (expandPushLink N rel s)
      rw [if_pos hn] at hd
      rw [hd, expandPushLink_displayed, mem_addToSet]
      constructor
      · rintro (h | rfl)
        · exact Or.inl h
        · exact Or.inr ⟨hhas, rfl⟩
      · rintro (h | ⟨_, rfl⟩)
        · exact Or.inl h
        · exact Or.inr rfl
  next hhas =>
    have : mapHas s.nodes rel.target = false := by
      cases h : mapHas s.nodes rel.target with
      | false => rfl
      | true => exact absurd h hhas
    simp [this]

theorem expandStep_zero_links (N : String) (rel : Relation) (s : State) :
    (expandStep N 0 rel s).displayedLinks = s.displayedLinks ∨
      (expandStep N 0 rel s).displayedLinks =
        s.displayedLinks ++ [relLink N rel] := by
  rw [expandStep_eq]
  split
  · split
    · rw [expandPushLink]
      split
      · exact Or.inl rfl
      · exact Or.inr rfl
    · rw [expandNode_zero_links, expandPushLink]
      split
      · exact Or.inl rfl
      · exact Or.inr rfl
  · exact Or.inl rfl

theorem expandRels_zero_displayed (N : String) :
    ∀ (rels : List Relation) (s : State) (x : String),
      (x ∈ (expandRels N 0 rels s).displayedNodes ↔
        x ∈ s.displayedNodes ∨
          ∃ r ∈ rels, mapHas s.nodes r.target = true ∧ x = r.target) := by
  intro rels
  induction rels with
  | nil =>
    intro s x
    rw [expandRels_nil_eq]
    simp
  | cons rel rest ih =>
    intro s x
    rw [expandRels_cons_eq]
    rw [ih (expandStep N 0 rel s) x]
    rw [(expandStep_extends N 0 rel s).nodes_eq]
    rw [expandStep_zero_displayed]
    constructor
    · rintro ((h | ⟨hh, rfl⟩) | ⟨r, hr, hh, rfl⟩)
      · exact Or.inl h
      · exact Or.inr ⟨rel, List.mem_cons_self _ _, hh, rfl⟩
      · exact Or.inr ⟨r, List.mem_cons_of_mem _ hr, hh, rfl⟩
    · rintro (h | ⟨r, hr, hh, rfl⟩)
      · exact Or.inl (Or.inl h)
      · rcases List.mem_cons.mp hr with rfl | hr2
        · exact Or.inl (Or.inr ⟨hh, rfl⟩)
        · exact Or.inr ⟨r, hr2, hh, rfl⟩

theorem expandRels_zero_links_sound (N : String) :
    ∀ (rels : List Relation) (s : State),
      ∀ l ∈ (expandRels N 0 rels s).displayedLinks,
        l ∈ s.displayedLinks ∨ ∃ r ∈ rels, l = relLink N r := by
  intro rels
  induction rels with
  | nil =>
    intro s l hl
    rw [expandRels_nil_eq] at hl
    exact Or.inl hl
  | cons rel rest ih =>
    intro s l hl
    rw [expandRels_cons_eq] at hl
    rcases ih (expandStep N 0 rel s) l hl with h | ⟨r, hr, rfl⟩
    · rcases expandStep_zero_links N rel s with he | he
      · rw [he] at h
        exact Or.inl h
      · rw [he] at h
        rcases List.mem_append.mp h with h2 | h2
        · exact Or.inl h2
        · simp only [List.mem_singleton] at h2
          exact Or.inr ⟨rel, List.mem_cons_self _ _, h2⟩
    · exact Or.inr ⟨r, List.mem_cons_of_mem _ hr, rfl⟩

/-- A node `P` with a self-referencing relation. -/
def selfLoopNode : Node :=
  { id := "P"
    name := "P"
    type := "object"
    umsType := "default"
    description := ""
    properties := []
    required := []
    recommended := []
    relations := [{ type := "association", target := "P", property := "parent",
                    isArray := false, via := none, description := "" }] }

/-- A freshly loaded state: parsed node map present, nothing displayed, no
selection (the state right after `parseSchema` fills `state.nodes` and
before any expansion). -/
def freshState (nm : List (String × Node)) (schemaName : String) : State :=
  { nodes := nm
    displayedNodes := []
    displayedLinks := []
    selectedNode := none
    selectedLink := none
    currentSchemaName := schemaName }

/-- C3: for a parsed node map whose root exists and whose root relations all
have parsed targets, `expandNode(root, 0)` from the empty displayed state
displays exactly the root and no links, and `expandNode(root, 1)` displays
the root plus exactly the direct relation targets, with exactly one link per
distinct (target, property) pair of the root's relations — every displayed
link having the root as source. -/
theorem expandNode_depth_zero_and_one (nm : List (String × Node))
    (sn root : String) (rootNode : Node)
    (hroot : mapGet nm root = some rootNode)
    (htargets : ∀ r ∈ rootNode.relations, mapHas nm r.target = true) :
    (expandNode root 0 (freshState nm sn)).displayedNodes = [root] ∧
      (expandNode root 0 (freshState nm sn)).displayedLinks = [] ∧
      (∀ x, x ∈ (expandNode root 1 (freshState nm sn)).displayedNodes ↔
        (x = root ∨ ∃ r ∈ rootNode.relations, x = r.target)) ∧
      (∀ t p, countTriple root t p
          (expandNode root 1 (freshState nm sn)).displayedLinks =
        if ∃ r ∈ rootNode.relations, r.target = t ∧ r.property = p then 1
        else 0) ∧
      (∀ l ∈ (expandNode root 1 (freshState nm sn)).displayedLinks,
        l.source = root) := by
  have hroot2 : mapGet (freshState nm sn).nodes root = some rootNode := hroot
  have hhasroot : mapHas (freshState nm sn).nodes root = true :=
    mapHas_of_mapGet hroot2
  have h1 : expandNode root 1 (freshState nm sn) =
      expandRels root 0 rootNode.relations
        { nodes := nm
          displayedNodes := [root]
          displayedLinks := []
          selectedNode := none
          selectedLink := none
          currentSchemaName := sn } := by
    rw [expandNode_eq, hroot2]
    rfl
  refine ⟨?_, expandNode_zero_links root _, ?_, ?_, ?_⟩
  · rw [expandNode_zero_displayed, if_pos hhasroot]
    rfl
  · intro x
    rw [h1, expandRels_zero_displayed]
    constructor
    · rintro (h | ⟨r, hr, _, rfl⟩)
      · simp only [List.mem_singleton] at h
        exact Or.inl h
      · exact Or.inr ⟨r, hr, rfl⟩
    · rintro (rfl | ⟨r, hr, rfl⟩)
      · exact Or.inl (List.mem_singleton.mpr rfl)
      · exact Or.inr ⟨r, hr, htargets r hr, rfl⟩
  · intro t p
    rw [h1]
    by_cases hex : ∃ r ∈ rootNode.relations, r.target = t ∧ r.property = p
    · rw [if_pos hex]
      obtain ⟨r0, hr0, hrt0, _⟩ := hex
      exact expand_triple_establish root t p 0 rootNode.relations _
        (List.mem_singleton.mpr rfl) (by rw [← hrt0]; exact htargets r0 hr0)
        rfl ⟨r0, hr0, hrt0, ‹r0.property = p›⟩
    · rw [if_neg hex]
      rcases Nat.eq_zero_or_pos (countTriple root t p
          (expandRels root 0 rootNode.relations _).displayedLinks) with h0 | hpos
      · exact h0
      · exfalso
        obtain ⟨l, hl, hso, hta, hpr⟩ := countTriple_pos_iff.mp hpos
        rcases expandRels_zero_links_sound root rootNode.relations _ l hl with
          h | ⟨r, hr, rfl⟩
        · exact absurd h (List.not_mem_nil l)
        · exact hex ⟨r, hr, by simpa [relLink] using hta,
            by simpa [relLink] using hpr⟩
  · intro l hl
    rw [h1] at hl
    rcases expandRels_zero_links_sound root rootNode.relations _ l hl with
      h | ⟨r, _, rfl⟩
    · exact absurd h (List.not_mem_nil l)
    · rfl

/-- Node map for the C3 witness: a root with two relations. -/
def c3Nodes : List (String × Node) :=
  [("Root",
    { id := "Root", name := "Root", type := "object", umsType := "root",
      description := "", properties := [], required := [], recommended := [],
      relations :=
        [{ type := "composition", target := "A", property := "pa",
           isArray := false, via := none, description := "" },
         { type := "composition", target := "B", property := "pb",
           isArray := false, via := none, description := "" }] }),
   ("A",
    { id := "A", name := "A", type := "object", umsType := "default",
      description := "", properties := [], required := [], recommended := [],
      relations := [] }),
   ("B",
    { id := "B", name := "B", type := "object", umsType := "default",
      description := "", properties := [], required := [], recommended := [],
      relations := [] })]

/-- Witness for C3 at a concrete schema with two root relations. -/
theorem expandNode_depth_zero_and_one_witness :
    (expandNode "Root" 0 (freshState c3Nodes "Document")).displayedNodes =
        ["Root"] ∧
      (expandNode "Root" 0 (freshState c3Nodes "Document")).displayedLinks =
        [] ∧
      countTriple "Root" "A" "pa"
        (expandNode "Root" 1 (freshState c3Nodes "Document")).displayedLinks =
          1 := by
  have h := expandNode_depth_zero_and_one c3Nodes "Document" "Root"
    ((c3Nodes.get ⟨0, by decide⟩).2) (by decide) (by decide)
  refine ⟨h.1, h.2.1, ?_⟩
  rw [h.2.2.2.1 "A" "pa", if_pos (by decide)]

/-- C5: a parsed node with a self-referencing relation, expanded with any
depth ≥ 1 from the empty displayed state, yields exactly one displayed link
with `source = target` for that (target, property) pair.  The expansion is a
total function in this embedding — mirroring the bounded-depth recursion of
the source, where the `displayedNodes.has` check stops the self-recursion on
the first pass while the edge is still registered. -/
theorem expandNode_self_loop (nm : List (String × Node)) (sn N p : String)
    (node : Node) (d : Nat)
    (hN : mapGet nm N = some node)
    (hrel : ∃ r ∈ node.relations, r.target = N ∧ r.property = p)
    (hd : 1 ≤ d) :
    countTriple N N p
        (expandNode N d (freshState nm sn)).displayedLinks = 1 ∧
      ∃ l ∈ (expandNode N d (freshState nm sn)).displayedLinks,
        l.source = l.target ∧ l.source = N ∧ l.property = p := by
  obtain ⟨d', rfl⟩ : ∃ d', d = d' + 1 := ⟨d - 1, by omega⟩
  have hN2 : mapGet (freshState nm sn).nodes N = some node := hN
  have h1 : expandNode N (d' + 1) (freshState nm sn) =
      expandRels N d' node.relations
        { nodes := nm
          displayedNodes := [N]
          displayedLinks := []
          selectedNode := none
          selectedLink := none
          currentSchemaName := sn } := by
    rw [expandNode_eq, hN2]
    rfl
  have hcount : countTriple N N p
      (expandNode N (d' + 1) (freshState nm sn)).displayedLinks = 1 := by
    rw [h1]
    exact expand_triple_establish N N p d' node.relations _
      (List.mem_singleton.mpr rfl) (mapHas_of_mapGet hN) rfl hrel
  refine ⟨hcount, ?_⟩
  obtain ⟨l, hl, hso, hta, hpr⟩ :=
    countTriple_pos_iff.mp (by rw [hcount]; exact Nat.one_pos)
  exact ⟨l, hl, by rw [hso, hta], hso, hpr⟩

/-- Witness for C5: the self-loop node `P`, expanded at depth 2. -/
theorem expandNode_self_loop_witness :
    countTriple "P" "P" "parent"
      (expandNode "P" 2
        (freshState [("P", selfLoopNode)] "Document")).displayedLinks = 1 :=
  (expandNode_self_loop [("P", selfLoopNode)] "Document" "P" "parent"
    selfLoopNode 2 (by decide)
    ⟨{ type := "association", target := "P", property := "parent",
       isArray := false, via := none, description := "" },
      by decide, by decide⟩ (by decide)).1

theorem Extends.countTriple_le {s s' : State} (h : Extends s s')
    (so t p : String) :
    countTriple so t p s.displayedLinks ≤
      countTriple so t p s'.displayedLinks := by
  obtain ⟨u, hu⟩ := h.links
  rw [hu, countTriple_append]
  exact Nat.le_add_right _ _

theorem Extends.countId_le {s s' : State} (h : Extends s s') (lid : String) :
    countId lid s.displayedLinks ≤ countId lid s'.displayedLinks := by
  obtain ⟨u, hu⟩ := h.links
  rw [hu, countId_append]
  exact Nat.le_add_right _ _

/-- Expanding a parsed node puts it in the displayed set. -/
theorem expandNode_self_displayed {n : String} {d : Nat} {s : State}
    (h : mapHas s.nodes n = true) : n ∈ (expandNode n d s).displayedNodes := by
  obtain ⟨v, hv⟩ := mapHas_iff.mp h
  rw [expandNode_eq, hv]
  cases d with
  | zero => exact self_mem_addToSet
  | succ d' =>
    exact (expandRels_extends n d' v.relations _).mem_displayed
      self_mem_addToSet

/-- After `expandPushLink` the relation's triple is displayed. -/
theorem expandPushLink_establishes (nodeId : String) (rel : Relation)
    (s : State) :
    0 < countTriple nodeId rel.target rel.property
      (expandPushLink nodeId rel s).displayedLinks := by
  rw [expandPushLink]
  split
  next hany => exact anyTriple_iff.mp hany
  next =>
    show 0 < countTriple nodeId rel.target rel.property
      (s.displayedLinks ++ [relLink nodeId rel])
    rw [countTriple_append, countTriple_singleton,
      if_pos ⟨rfl, rfl, rfl⟩]
    omega

/-- Postcondition of one relation-loop iteration: the relation's triple is
displayed and its target is in the displayed set. -/
theorem expandStep_post (n : String) (d : Nat) (rel : Relation) (s : State)
    (h : mapHas s.nodes rel.target = true) :
    0 < countTriple n rel.target rel.property
        (expandStep n d rel s).displayedLinks ∧
      rel.target ∈ (expandStep n d rel s).displayedNodes := by
  rw [expandStep_eq, if_pos h]
  split
  next hcont =>
    exact ⟨expandPushLink_establishes n rel s, by simpa using hcont⟩
  next hcont =>
    constructor
    · exact Nat.lt_of_lt_of_le (expandPushLink_establishes n rel s)
        ((expandNode_extends rel.target d _).countTriple_le n rel.target
          rel.property)
    · exact expandNode_self_displayed (by rw [expandPushLink_nodes]; exact h)

/-- Postcondition of the relation loop: every processed relation with a
parsed target ends with its triple displayed and its target displayed. -/
theorem expandRels_post (n : String) (d : Nat) :
    ∀ (rels : List Relation) (s : State), ∀ rel ∈ rels,
      mapHas s.nodes rel.target = true →
      0 < countTriple n rel.target rel.property
          (expandRels n d rels s).displayedLinks ∧
        rel.target ∈ (expandRels n d rels s).displayedNodes := by
  intro rels
  induction rels with
  | nil =>
    intro s rel hrel
    exact absurd hrel (List.not_mem_nil rel)
  | cons r0 rest ih =>
    intro s rel hrel hhas
    rw [expandRels_cons_eq]
    rcases List.mem_cons.mp hrel with rfl | hmem
    · obtain ⟨h1, h2⟩ := expandStep_post n d rel s hhas
      have hext := expandRels_extends n d rest (expandStep n d rel s)
      exact ⟨Nat.lt_of_lt_of_le h1
          (hext.countTriple_le n rel.target rel.property),
        hext.mem_displayed h2⟩
    · exact ih _ rel hmem
        (by rw [(expandStep_extends n d r0 s).nodes_eq]; exact hhas)

/-- If every relation in the list already has its triple displayed and its
target displayed, the relation loop changes nothing. -/
theorem expandRels_noop (n : String) (d : Nat) :
    ∀ (rels : List Relation) (s : State),
      (∀ rel ∈ rels, mapHas s.nodes rel.target = true →
        0 < countTriple n rel.target rel.property s.displayedLinks ∧
          rel.target ∈ s.displayedNodes) →
      expandRels n d rels s = s := by
  intro rels
  induction rels with
  | nil =>
    intro s _
    rw [expandRels_nil_eq]
  | cons rel rest ih =>
    intro s h
    have hstep : expandStep n d rel s = s := by
      rw [expandStep_eq]
      cases hhas : mapHas s.nodes rel.target with
      | false => rw [if_neg (by simp)]
      | true =>
        rw [if_pos rfl]
        obtain ⟨h1, h2⟩ := h rel (List.mem_cons_self _ _) hhas
        rw [expandPushLink_of_present h1]
        rw [if_pos (by simpa using h2)]
    rw [expandRels_cons_eq, hstep]
    exact ih s (fun r hr => h r (List.mem_cons_of_mem _ hr))

/-- Re-expanding a node whose relations are all already materialized changes
nothing. -/
theorem expandNode_noop (n : String) (d : Nat) (s : State)
    (h1 : n ∈ s.displayedNodes)
    (h2 : ∀ node, mapGet s.nodes n = some node →
      ∀ rel ∈ node.relations, mapHas s.nodes rel.target = true →
        0 < countTriple n rel.target rel.property s.displayedLinks ∧
          rel.target ∈ s.displayedNodes) :
    expandNode n d s = s := by
  rw [expandNode_eq]
  cases hg : mapGet s.nodes n with
  | none => rfl
  | some node =>
    cases d with
    | zero =>
      show { s with displayedNodes := addToSet s.displayedNodes n } = s
      rw [addToSet_of_mem h1]
    | succ d' =>
      show expandRels n d' node.relations
        { s with displayedNodes := addToSet s.displayedNodes n } = s
      rw [addToSet_of_mem h1]
      exact expandRels_noop n d' node.relations s (h2 node hg)

/-- `expandNode` at depth 0 on an already-displayed node changes nothing. -/
theorem expandNode_zero_noop (n : String) (s : State)
    (h1 : n ∈ s.displayedNodes) : expandNode n 0 s = s := by
  rw [expandNode_eq]
  cases mapGet s.nodes n with
  | none => rfl
  | some node =>
    show { s with displayedNodes := addToSet s.displayedNodes n } = s
    rw [addToSet_of_mem h1]

/-- C4 amended, part for `expandNode`: expanding twice with identical
arguments equals expanding once. -/
theorem expandNode_idem (n : String) (d : Nat) (s : State) :
    expandNode n d (expandNode n d s) = expandNode n d s := by
  cases hg : mapGet s.nodes n with
  | none =>
    have hid : expandNode n d s = s := by
      rw [expandNode_eq, hg]
    rw [hid, hid]
  | some node =>
    cases d with
    | zero =>
      exact expandNode_zero_noop n _
        (expandNode_self_displayed (mapHas_of_mapGet hg))
    | succ d' =>
      have hnodes : (expandNode n (d' + 1) s).nodes = s.nodes :=
        (expandNode_extends n (d' + 1) s).nodes_eq
      have hdisp : n ∈ (expandNode n (d' + 1) s).displayedNodes :=
        expandNode_self_displayed (mapHas_of_mapGet hg)
      refine expandNode_noop n (d' + 1) _ hdisp ?_
      intro node2 hg2 rel hrel hhas
      rw [hnodes, hg] at hg2
      cases hg2
      rw [expandNode_eq, hg]
      have hpost := expandRels_post n d' node.relations
        { s with displayedNodes := addToSet s.displayedNodes n } rel hrel
        (by rw [hnodes] at hhas; exact hhas)
      exact hpost

/-! ### Characterization of autoAddReverseLinks (graph.js) -/

theorem mem_getReverseRelations {nodeId : String} {s : State} {rev : RevRel} :
    rev ∈ getReverseRelations nodeId s ↔
      ∃ p ∈ s.nodes, ¬ p.1 = nodeId ∧ ∃ r ∈ p.2.relations, r.target = nodeId ∧
        rev = { source := p.1, sourceName := p.2.name, type := r.type,
                property := r.property, isArray := r.isArray, via := r.via,
                description := r.description } := by
  simp only [getReverseRelations, List.mem_flatMap]
  constructor
  · rintro ⟨p, hp, hrev⟩
    by_cases hid : p.1 = nodeId
    · simp [hid] at hrev
    · rw [if_neg (by simpa using hid)] at hrev
      simp only [List.mem_map, List.mem_filter, beq_iff_eq] at hrev
      obtain ⟨r, ⟨hrmem, hrt⟩, hmk⟩ := hrev
      exact ⟨p, hp, hid, r, hrmem, hrt, hmk.symm⟩
  · rintro ⟨p, hp, hid, r, hrmem, hrt, hmk⟩
    refine ⟨p, hp, ?_⟩
    rw [if_neg (by simpa using hid)]
    simp only [List.mem_map, List.mem_filter, beq_iff_eq]
    exact ⟨r, ⟨hrmem, hrt⟩, hmk.symm⟩

theorem alia_state (lnk : Link) (a : Bool) (s : State) :
    (addLinkIfAbsentFlag lnk a s).2.nodes = s.nodes ∧
      (addLinkIfAbsentFlag lnk a s).2.displayedNodes = s.displayedNodes ∧
      (addLinkIfAbsentFlag lnk a s).2.selectedNode = s.selectedNode ∧
      (addLinkIfAbsentFlag lnk a s).2.selectedLink = s.selectedLink ∧
      (addLinkIfAbsentFlag lnk a s).2.currentSchemaName =
        s.currentSchemaName ∧
      ∃ u, (addLinkIfAbsentFlag lnk a s).2.displayedLinks =
        s.displayedLinks ++ u := by
  rw [addLinkIfAbsentFlag]
  split
  · exact ⟨rfl, rfl, rfl, rfl, rfl, [], by simp⟩
  · exact ⟨rfl, rfl, rfl, rfl, rfl, [lnk], rfl⟩

theorem alia_pos {lnk : Link} {s : State} (a : Bool)
    (h : s.displayedLinks.any (fun l => l.id == lnk.id) = true) :
    addLinkIfAbsentFlag lnk a s = (a, s) := by
  rw [addLinkIfAbsentFlag, if_pos h]

theorem alia_neg {lnk : Link} {s : State} (a : Bool)
    (h : s.displayedLinks.any (fun l => l.id == lnk.id) = false) :
    addLinkIfAbsentFlag lnk a s =
      (true, { s with displayedLinks := s.displayedLinks ++ [lnk] }) := by
  rw [addLinkIfAbsentFlag, if_neg (by simp [h])]

theorem alia_flag_true (lnk : Link) (s : State) :
    (addLinkIfAbsentFlag lnk true s).1 = true := by
  rw [addLinkIfAbsentFlag]
  split
  · rfl
  · rfl

theorem autoRevGo_state (nodeId : String) :
    ∀ (revs : List RevRel) (a : Bool) (s : State),
      (autoRevGo nodeId revs a s).2.nodes = s.nodes ∧
        (autoRevGo nodeId revs a s).2.displayedNodes = s.displayedNodes ∧
        (autoRevGo nodeId revs a s).2.selectedNode = s.selectedNode ∧
        (autoRevGo nodeId revs a s).2.selectedLink = s.selectedLink ∧
        (autoRevGo nodeId revs a s).2.currentSchemaName =
          s.currentSchemaName ∧
        ∃ u, (autoRevGo nodeId revs a s).2.displayedLinks =
          s.displayedLinks ++ u := by
  intro revs
  induction revs with
  | nil =>
    intro a s
    exact ⟨rfl, rfl, rfl, rfl, rfl, [], by simp [autoRevGo]⟩
  | cons rev rest ih =>
    intro a s
    rw [autoRevGo]
    split
    · obtain ⟨h1, h2, h3, h4, h5, u, hu⟩ :=
        ih (addLinkIfAbsentFlag (mkRevLink nodeId rev) a s).1
          (addLinkIfAbsentFlag (mkRevLink nodeId rev) a s).2
      obtain ⟨g1, g2, g3, g4, g5, v, hv⟩ :=
        alia_state (mkRevLink nodeId rev) a s
      exact ⟨h1.trans g1, h2.trans g2, h3.trans g3, h4.trans g4, h5.trans g5,
        v ++ u, by rw [hu, hv, List.append_assoc]⟩
    · exact ih a s

theorem autoRevGo_flag_true (nodeId : String) :
    ∀ (revs : List RevRel) (s : State),
      (autoRevGo nodeId revs true s).1 = true := by
  intro revs
  induction revs with
  | nil => intro s; rfl
  | cons rev rest ih =>
    intro s
    rw [autoRevGo]
    split
    · rw [alia_flag_true]
      exact ih _
    · exact ih s

theorem autoRevGo_added_iff (nodeId : String) :
    ∀ (revs : List RevRel) (a : Bool) (s : State),
      ((autoRevGo nodeId revs a s).1 = true ↔
        (a = true ∨ s.displayedLinks.length <
          (autoRevGo nodeId revs a s).2.displayedLinks.length)) := by
  intro revs
  induction revs with
  | nil =>
    intro a s
    simp [autoRevGo]
  | cons rev rest ih =>
    intro a s
    rw [autoRevGo]
    split
    · cases hany : s.displayedLinks.any
          (fun l => l.id == (mkRevLink nodeId rev).id) with
      | true =>
        rw [alia_pos a hany]
        exact ih a s
      | false =>
        rw [alia_neg a hany]
        constructor
        · intro _
          right
          obtain ⟨_, _, _, _, _, u, hu⟩ := autoRevGo_state nodeId rest true _
          rw [hu]
          simp
        · intro _
          exact autoRevGo_flag_true nodeId rest _
    · exact ih a s

theorem autoRevGo_unchanged (nodeId : String) :
    ∀ (revs : List RevRel) (a : Bool) (s : State),
      (autoRevGo nodeId revs a s).1 = false →
        (autoRevGo nodeId revs a s).2 = s := by
  intro revs
  induction revs with
  | nil =>
    intro a s _
    rfl
  | cons rev rest ih =>
    intro a s h
    rw [autoRevGo] at h ⊢
    split at h
    next hdisp =>
      rw [if_pos hdisp]
      cases hany : s.displayedLinks.any
          (fun l => l.id == (mkRevLink nodeId rev).id) with
      | true =>
        rw [alia_pos a hany] at h ⊢
        exact ih a s h
      | false =>
        rw [alia_neg a hany] at h
        rw [autoRevGo_flag_true nodeId rest _] at h
        exact absurd h (by simp)
    next hdisp =>
      rw [if_neg hdisp]
      exact ih a s h

theorem autoRevGo_links_sound (nodeId : String) :
    ∀ (revs : List RevRel) (a : Bool) (s : State),
      ∀ l ∈ (autoRevGo nodeId revs a s).2.displayedLinks,
        l ∈ s.displayedLinks ∨
          ∃ rev ∈ revs, rev.source ∈ s.displayedNodes ∧
            l = mkRevLink nodeId rev := by
  intro revs
  induction revs with
  | nil =>
    intro a s l hl
    exact Or.inl hl
  | cons rev rest ih =>
    intro a s l hl
    rw [autoRevGo] at hl
    split at hl
    next hdisp =>
      cases hany : s.displayedLinks.any
          (fun l => l.id == (mkRevLink nodeId rev).id) with
      | true =>
        rw [alia_pos a hany] at hl
        rcases ih a s l hl with h | ⟨rv, hrv, hd, he⟩
        · exact Or.inl h
        · exact Or.inr ⟨rv, List.mem_cons_of_mem _ hrv, hd, he⟩
      | false =>
        rw [alia_neg a hany] at hl
        rcases ih true _ l hl with h | ⟨rv, hrv, hd, he⟩
        · rcases List.mem_append.mp h with h2 | h2
          · exact Or.inl h2
          · simp only [List.mem_singleton] at h2
            exact Or.inr ⟨rev, List.mem_cons_self _ _,
              by simpa using hdisp, h2⟩
        · exact Or.inr ⟨rv, List.mem_cons_of_mem _ hrv, by simpa using hd, he⟩
    next =>
      rcases ih a s l hl with h | ⟨rv, hrv, hd, he⟩
      · exact Or.inl h
      · exact Or.inr ⟨rv, List.mem_cons_of_mem _ hrv, hd, he⟩

theorem autoRevGo_links_complete (nodeId : String) :
    ∀ (revs : List RevRel) (a : Bool) (s : State),
      ∀ rev ∈ revs, rev.source ∈ s.displayedNodes →
        (autoRevGo nodeId revs a s).2.displayedLinks.any
          (fun l => l.id == mkLinkId rev.source nodeId rev.property) =
            true := by
  intro revs
  induction revs with
  | nil =>
    intro a s rev hrev
    exact absurd hrev (List.not_mem_nil _)
  | cons rv rest ih =>
    intro a s rev hrev hdisp
    rcases List.mem_cons.mp hrev with rfl | hmem
    · rw [autoRevGo, if_pos (by simpa using hdisp)]
      cases hany : s.displayedLinks.any
          (fun l => l.id == (mkRevLink nodeId rev).id) with
      | true =>
        rw [alia_pos a hany]
        obtain ⟨_, _, _, _, _, u, hu⟩ := autoRevGo_state nodeId rest a s
        rw [hu]
        simp only [List.any_append, Bool.or_eq_true]
        exact Or.inl (by simpa [mkRevLink] using hany)
      | false =>
        rw [alia_neg a hany]
        obtain ⟨_, _, _, _, _, u, hu⟩ := autoRevGo_state nodeId rest true _
        rw [hu]
        simp only [List.any_append, Bool.or_eq_true]
        exact Or.inl (by simp [mkRevLink])
    · rw [autoRevGo]
      split
      next hdisp2 =>
        cases hany : s.displayedLinks.any
            (fun l => l.id == (mkRevLink nodeId rv).id) with
        | true =>
          rw [alia_pos a hany]
          exact ih a s rev hmem hdisp
        | false =>
          rw [alia_neg a hany]
          exact ih true _ rev hmem hdisp
      next =>
        exact ih a s rev hmem hdisp

theorem getReverseRelations_congr {nodeId : String} {s s' : State}
    (h : s'.nodes = s.nodes) :
    getReverseRelations nodeId s' = getReverseRelations nodeId s := by
  unfold getReverseRelations
  rw [h]

/-- If every reverse link for a displayed source is already displayed, the
reverse-link loop changes nothing and reports no addition. -/
theorem autoRevGo_noop (nodeId : String) :
    ∀ (revs : List RevRel) (a : Bool) (s : State),
      (∀ rev ∈ revs, rev.source ∈ s.displayedNodes →
        s.displayedLinks.any
          (fun l => l.id == mkLinkId rev.source nodeId rev.property) = true) →
      autoRevGo nodeId revs a s = (a, s) := by
  intro revs
  induction revs with
  | nil =>
    intro a s _
    rfl
  | cons rev rest ih =>
    intro a s h
    rw [autoRevGo]
    split
    next hdisp =>
      have hany : s.displayedLinks.any
          (fun l => l.id == (mkRevLink nodeId rev).id) = true :=
        h rev (List.mem_cons_self _ _) (by simpa using hdisp)
      rw [alia_pos a hany]
      exact ih a s (fun rv hrv => h rv (List.mem_cons_of_mem _ hrv))
    next =>
      exact ih a s (fun rv hrv => h rv (List.mem_cons_of_mem _ hrv))

/-- C4 amended, part for `autoAddReverseLinks`: the second identical call is
a no-op and reports no addition. -/
theorem autoAddReverseLinks_idem (n : String) (s : State) :
    autoAddReverseLinks n (autoAddReverseLinks n s).2 =
      (false, (autoAddReverseLinks n s).2) := by
  obtain ⟨h1, h2, _, _, _, u, hu⟩ :=
    autoRevGo_state n (getReverseRelations n s) false s
  have h1' : (autoAddReverseLinks n s).2.nodes = s.nodes := h1
  have h2' : (autoAddReverseLinks n s).2.displayedNodes = s.displayedNodes :=
    h2
  show autoRevGo n (getReverseRelations n (autoAddReverseLinks n s).2) false
      (autoAddReverseLinks n s).2 = _
  rw [getReverseRelations_congr h1']
  exact autoRevGo_noop n (getReverseRelations n s) false _
    (fun rev hrev hdisp =>
      autoRevGo_links_complete n (getReverseRelations n s) false s rev hrev
        (by rw [h2'] at hdisp; exact hdisp))

theorem autoFwdGo_state (nodeId : String) :
    ∀ (rels : List Relation) (a : Bool) (s : State),
      (autoFwdGo nodeId rels a s).2.nodes = s.nodes ∧
        (autoFwdGo nodeId rels a s).2.displayedNodes = s.displayedNodes ∧
        (autoFwdGo nodeId rels a s).2.selectedNode = s.selectedNode ∧
        (autoFwdGo nodeId rels a s).2.selectedLink = s.selectedLink ∧
        (autoFwdGo nodeId rels a s).2.currentSchemaName =
          s.currentSchemaName ∧
        ∃ u, (autoFwdGo nodeId rels a s).2.displayedLinks =
          s.displayedLinks ++ u := by
  intro rels
  induction rels with
  | nil =>
    intro a s
    exact ⟨rfl, rfl, rfl, rfl, rfl, [], by simp [autoFwdGo]⟩
  | cons rel rest ih =>
    intro a s
    rw [autoFwdGo]
    split
    · obtain ⟨h1, h2, h3, h4, h5, u, hu⟩ :=
        ih (addLinkIfAbsentFlag (relLink nodeId rel) a s).1
          (addLinkIfAbsentFlag (relLink nodeId rel) a s).2
      obtain ⟨g1, g2, g3, g4, g5, v, hv⟩ :=
        alia_state (relLink nodeId rel) a s
      exact ⟨h1.trans g1, h2.trans g2, h3.trans g3, h4.trans g4, h5.trans g5,
        v ++ u, by rw [hu, hv, List.append_assoc]⟩
    · exact ih a s

theorem autoFwdGo_links_complete (nodeId : String) :
    ∀ (rels : List Relation) (a : Bool) (s : State),
      ∀ rel ∈ rels, rel.target ∈ s.displayedNodes →
        (autoFwdGo nodeId rels a s).2.displayedLinks.any
          (fun l => l.id == mkLinkId nodeId rel.target rel.property) =
            true := by
  intro rels
  induction rels with
  | nil =>
    intro a s rel hrel
    exact absurd hrel (List.not_mem_nil _)
  | cons r0 rest ih =>
    intro a s rel hrel hdisp
    rcases List.mem_cons.mp hrel with rfl | hmem
    · rw [autoFwdGo, if_pos (by simpa using hdisp)]
      cases hany : s.displayedLinks.any
          (fun l => l.id == (relLink nodeId rel).id) with
      | true =>
        rw [alia_pos a hany]
        obtain ⟨_, _, _, _, _, u, hu⟩ := autoFwdGo_state nodeId rest a s
        rw [hu]
        simp only [List.any_append, Bool.or_eq_true]
        exact Or.inl (by simpa [relLink] using hany)
      | false =>
        rw [alia_neg a hany]
        obtain ⟨_, _, _, _, _, u, hu⟩ := autoFwdGo_state nodeId rest true _
        rw [hu]
        simp only [List.any_append, Bool.or_eq_true]
        exact Or.inl (by simp [relLink])
    · rw [autoFwdGo]
      split
      next hdisp2 =>
        cases hany : s.displayedLinks.any
            (fun l => l.id == (relLink nodeId r0).id) with
        | true =>
          rw [alia_pos a hany]
          exact ih a s rel hmem hdisp
        | false =>
          rw [alia_neg a hany]
          exact ih true _ rel hmem hdisp
      next =>
        exact ih a s rel hmem hdisp

/-- If every forward link with a displayed target is already displayed, the
forward-link loop changes nothing and reports no addition. -/
theorem autoFwdGo_noop (nodeId : String) :
    ∀ (rels : List Relation) (a : Bool) (s : State),
      (∀ rel ∈ rels, rel.target ∈ s.displayedNodes →
        s.displayedLinks.any
          (fun l => l.id == mkLinkId nodeId rel.target rel.property) = true) →
      autoFwdGo nodeId rels a s = (a, s) := by
  intro rels
  induction rels with
  | nil =>
    intro a s _
    rfl
  | cons rel rest ih =>
    intro a s h
    rw [autoFwdGo]
    split
    next hdisp =>
      have hany : s.displayedLinks.any
          (fun l => l.id == (relLink nodeId rel).id) = true :=
        h rel (List.mem_cons_self _ _) (by simpa using hdisp)
      rw [alia_pos a hany]
      exact ih a s (fun r hr => h r (List.mem_cons_of_mem _ hr))
    next =>
      exact ih a s (fun r hr => h r (List.mem_cons_of_mem _ hr))

/-- C4 amended, part for `autoAddForwardLinks`: the second identical call is
a no-op and reports no addition. -/
theorem autoAddForwardLinks_idem (n : String) (s : State) :
    autoAddForwardLinks n (autoAddForwardLinks n s).2 =
      (false, (autoAddForwardLinks n s).2) := by
  cases hg : mapGet s.nodes n with
  | none =>
    have h1 : autoAddForwardLinks n s = (false, s) := by
      rw [autoAddForwardLinks, hg]
    rw [h1]
    rw [autoAddForwardLinks, hg]
  | some node =>
    have h1 : autoAddForwardLinks n s = autoFwdGo n node.relations false s := by
      rw [autoAddForwardLinks, hg]
    obtain ⟨g1, g2, _, _, _, u, hu⟩ := autoFwdGo_state n node.relations false s
    have hg2 : mapGet (autoAddForwardLinks n s).2.nodes n = some node := by
      rw [h1, g1]
      exact hg
    rw [autoAddForwardLinks, hg2]
    refine autoFwdGo_noop n node.relations false _ ?_
    intro rel hrel hdisp
    rw [h1]
    refine autoFwdGo_links_complete n node.relations false s rel hrel ?_
    rw [h1, g2] at hdisp
    exact hdisp

theorem any_append_left {links u : List Link} {f : Link → Bool}
    (h : links.any f = true) : (links ++ u).any f = true := by
  simp [List.any_append, h]

theorem alia_present (lnk : Link) (a : Bool) (s : State) :
    (addLinkIfAbsentFlag lnk a s).2.displayedLinks.any
      (fun l => l.id == lnk.id) = true := by
  rw [addLinkIfAbsentFlag]
  split
  next h => exact h
  next =>
    show (s.displayedLinks ++ [lnk]).any (fun l => l.id == lnk.id) = true
    simp [List.any_append]

theorem ania_state (x : String) (a : Bool) (s : State) :
    (addNodeIfAbsentFlag x a s).2.nodes = s.nodes ∧
      (addNodeIfAbsentFlag x a s).2.displayedLinks = s.displayedLinks ∧
      (addNodeIfAbsentFlag x a s).2.selectedNode = s.selectedNode ∧
      (addNodeIfAbsentFlag x a s).2.selectedLink = s.selectedLink ∧
      (addNodeIfAbsentFlag x a s).2.currentSchemaName =
        s.currentSchemaName ∧
      ∃ t, (addNodeIfAbsentFlag x a s).2.displayedNodes =
        s.displayedNodes ++ t := by
  rw [addNodeIfAbsentFlag]
  split
  · exact ⟨rfl, rfl, rfl, rfl, rfl, [], by simp⟩
  · exact ⟨rfl, rfl, rfl, rfl, rfl, addToSet_append⟩

theorem ania_pos {x : String} {s : State} (a : Bool)
    (h : s.displayedNodes.contains x = true) :
    addNodeIfAbsentFlag x a s = (a, s) := by
  rw [addNodeIfAbsentFlag, if_pos h]

theorem ania_mem (x : String) (a : Bool) (s : State) :
    x ∈ (addNodeIfAbsentFlag x a s).2.displayedNodes := by
  rw [addNodeIfAbsentFlag]
  split
  next h => simpa using h
  next => exact self_mem_addToSet

theorem expandAllFwdGo_state (nodeId : String) :
    ∀ (rels : List Relation) (a : Bool) (s : State),
      (expandAllFwdGo nodeId rels a s).2.nodes = s.nodes ∧
        (expandAllFwdGo nodeId rels a s).2.selectedNode = s.selectedNode ∧
        (expandAllFwdGo nodeId rels a s).2.selectedLink = s.selectedLink ∧
        (expandAllFwdGo nodeId rels a s).2.currentSchemaName =
          s.currentSchemaName ∧
        (∃ t, (expandAllFwdGo nodeId rels a s).2.displayedNodes =
          s.displayedNodes ++ t) ∧
        ∃ u, (expandAllFwdGo nodeId rels a s).2.displayedLinks =
          s.displayedLinks ++ u := by
  intro rels
  induction rels with
  | nil =>
    intro a s
    exact ⟨rfl, rfl, rfl, rfl, ⟨[], by simp [expandAllFwdGo]⟩,
      ⟨[], by simp [expandAllFwdGo]⟩⟩
  | cons rel rest ih =>
    intro a s
    rw [expandAllFwdGo]
    split
    · obtain ⟨i1, i2, i3, i4, ⟨t1, ht1⟩, u1, hu1⟩ := ih _ _
      obtain ⟨a1, a2, a3, a4, a5, v1, hv1⟩ :=
        alia_state (relLink nodeId rel) (addNodeIfAbsentFlag rel.target a s).1
          (addNodeIfAbsentFlag rel.target a s).2
      obtain ⟨n1, n2, n3, n4, n5, w1, hw1⟩ := ania_state rel.target a s
      refine ⟨i1.trans (a1.trans n1), i2.trans (a3.trans n3),
        i3.trans (a4.trans n4), i4.trans (a5.trans n5), ?_, ?_⟩
      · refine ⟨w1 ++ t1, ?_⟩
        rw [ht1]
        have : (addLinkIfAbsentFlag (relLink nodeId rel)
            (addNodeIfAbsentFlag rel.target a s).1
            (addNodeIfAbsentFlag rel.target a s).2).2.displayedNodes =
              s.displayedNodes ++ w1 := by
          rw [a2, hw1]
        rw [this, List.append_assoc]
      · refine ⟨v1 ++ u1, ?_⟩
        rw [hu1, hv1, n2, List.append_assoc]
    · exact ih a s

theorem expandAllRevGo_state (nodeId : String) :
    ∀ (revs : List RevRel) (a : Bool) (s : State),
      (expandAllRevGo nodeId revs a s).2.nodes = s.nodes ∧
        (expandAllRevGo nodeId revs a s).2.selectedNode = s.selectedNode ∧
        (expandAllRevGo nodeId revs a s).2.selectedLink = s.selectedLink ∧
        (expandAllRevGo nodeId revs a s).2.currentSchemaName =
          s.currentSchemaName ∧
        (∃ t, (expandAllRevGo nodeId revs a s).2.displayedNodes =
          s.displayedNodes ++ t) ∧
        ∃ u, (expandAllRevGo nodeId revs a s).2.displayedLinks =
          s.displayedLinks ++ u := by
  intro revs
  induction revs with
  | nil =>
    intro a s
    exact ⟨rfl, rfl, rfl, rfl, ⟨[], by simp [expandAllRevGo]⟩,
      ⟨[], by simp [expandAllRevGo]⟩⟩
  | cons rev rest ih =>
    intro a s
    rw [expandAllRevGo]
    obtain ⟨i1, i2, i3, i4, ⟨t1, ht1⟩, u1, hu1⟩ := ih _ _
    obtain ⟨a1, a2, a3, a4, a5, v1, hv1⟩ :=
      alia_state (mkRevLink nodeId rev) (addNodeIfAbsentFlag rev.source a s).1
        (addNodeIfAbsentFlag rev.source a s).2
    obtain ⟨n1, n2, n3, n4, n5, w1, hw1⟩ := ania_state rev.source a s
    refine ⟨i1.trans (a1.trans n1), i2.trans (a3.trans n3),
      i3.trans (a4.trans n4), i4.trans (a5.trans n5), ?_, ?_⟩
    · refine ⟨w1 ++ t1, ?_⟩
      rw [ht1]
      have : (addLinkIfAbsentFlag (mkRevLink nodeId rev)
          (addNodeIfAbsentFlag rev.source a s).1
          (addNodeIfAbsentFlag rev.source a s).2).2.displayedNodes =
            s.displayedNodes ++ w1 := by
        rw [a2, hw1]
      rw [this, List.append_assoc]
    · refine ⟨v1 ++ u1, ?_⟩
      rw [hu1, hv1, n2, List.append_assoc]

theorem expandAllFwdGo_post (nodeId : String) :
    ∀ (rels : List Relation) (a : Bool) (s : State), ∀ rel ∈ rels,
      mapHas s.nodes rel.target = true →
      rel.target ∈ (expandAllFwdGo nodeId rels a s).2.displayedNodes ∧
        (expandAllFwdGo nodeId rels a s).2.displayedLinks.any
          (fun l => l.id == mkLinkId nodeId rel.target rel.property) =
            true := by
  intro rels
  induction rels with
  | nil =>
    intro a s rel hrel
    exact absurd hrel (List.not_mem_nil _)
  | cons r0 rest ih =>
    intro a s rel hrel hhas
    rw [expandAllFwdGo]
    rcases List.mem_cons.mp hrel with rfl | hmem
    · rw [if_pos hhas]
      obtain ⟨_, _, _, _, ⟨t1, ht1⟩, u1, hu1⟩ := expandAllFwdGo_state nodeId
        rest (addLinkIfAbsentFlag (relLink nodeId rel)
          (addNodeIfAbsentFlag rel.target a s).1
          (addNodeIfAbsentFlag rel.target a s).2).1
        (addLinkIfAbsentFlag (relLink nodeId rel)
          (addNodeIfAbsentFlag rel.target a s).1
          (addNodeIfAbsentFlag rel.target a s).2).2
      obtain ⟨_, a2, _, _, _, _⟩ :=
        alia_state (relLink nodeId rel) (addNodeIfAbsentFlag rel.target a s).1
          (addNodeIfAbsentFlag rel.target a s).2
      constructor
      · rw [ht1]
        refine List.mem_append_left _ ?_
        rw [a2]
        exact ania_mem rel.target a s
      · rw [hu1]
        exact any_append_left (alia_present _ _ _)
    · split
      · refine ih _ _ rel hmem ?_
        obtain ⟨a1, _, _, _, _, _⟩ :=
          alia_state (relLink nodeId r0) (addNodeIfAbsentFlag r0.target a s).1
            (addNodeIfAbsentFlag r0.target a s).2
        obtain ⟨n1, _, _, _, _, _⟩ := ania_state r0.target a s
        rw [a1.trans n1]
        exact hhas
      · exact ih a s rel hmem hhas

theorem expandAllRevGo_post (nodeId : String) :
    ∀ (revs : List RevRel) (a : Bool) (s : State), ∀ rev ∈ revs,
      rev.source ∈ (expandAllRevGo nodeId revs a s).2.displayedNodes ∧
        (expandAllRevGo nodeId revs a s).2.displayedLinks.any
          (fun l => l.id == mkLinkId rev.source nodeId rev.property) =
            true := by
  intro revs
  induction revs with
  | nil =>
    intro a s rev hrev
    exact absurd hrev (List.not_mem_nil _)
  | cons r0 rest ih =>
    intro a s rev hrev
    rw [expandAllRevGo]
    rcases List.mem_cons.mp hrev with rfl | hmem
    · obtain ⟨_, _, _, _, ⟨t1, ht1⟩, u1, hu1⟩ := expandAllRevGo_state nodeId
        rest (addLinkIfAbsentFlag (mkRevLink nodeId rev)
          (addNodeIfAbsentFlag rev.source a s).1
          (addNodeIfAbsentFlag rev.source a s).2).1
        (addLinkIfAbsentFlag (mkRevLink nodeId rev)
          (addNodeIfAbsentFlag rev.source a s).1
          (addNodeIfAbsentFlag rev.source a s).2).2
      obtain ⟨_, a2, _, _, _, _⟩ :=
        alia_state (mkRevLink nodeId rev)
          (addNodeIfAbsentFlag rev.source a s).1
          (addNodeIfAbsentFlag rev.source a s).2
      constructor
      · rw [ht1]
        refine List.mem_append_left _ ?_
        rw [a2]
        exact ania_mem rev.source a s
      · rw [hu1]
        exact any_append_left (alia_present _ _ _)
    · exact ih _ _ rev hmem

theorem expandAllFwdGo_noop (nodeId : String) :
    ∀ (rels : List Relation) (a : Bool) (s : State),
      (∀ rel ∈ rels, mapHas s.nodes rel.target = true →
        rel.target ∈ s.displayedNodes ∧
          s.displayedLinks.any
            (fun l => l.id == mkLinkId nodeId rel.target rel.property) =
              true) →
      expandAllFwdGo nodeId rels a s = (a, s) := by
  intro rels
  induction rels with
  | nil =>
    intro a s _
    rfl
  | cons rel rest ih =>
    intro a s h
    rw [expandAllFwdGo]
    split
    next hhas =>
      obtain ⟨hd, hl⟩ := h rel (List.mem_cons_self _ _) hhas
      rw [ania_pos a (by simpa using hd), alia_pos a hl]
      exact ih a s (fun r hr => h r (List.mem_cons_of_mem _ hr))
    next =>
      exact ih a s (fun r hr => h r (List.mem_cons_of_mem _ hr))

theorem expandAllRevGo_noop (nodeId : String) :
    ∀ (revs : List RevRel) (a : Bool) (s : State),
      (∀ rev ∈ revs,
        rev.source ∈ s.displayedNodes ∧
          s.displayedLinks.any
            (fun l => l.id == mkLinkId rev.source nodeId rev.property) =
              true) →
      expandAllRevGo nodeId revs a s = (a, s) := by
  intro revs
  induction revs with
  | nil =>
    intro a s _
    rfl
  | cons rev rest ih =>
    intro a s h
    rw [expandAllRevGo]
    obtain ⟨hd, hl⟩ := h rev (List.mem_cons_self _ _)
    rw [ania_pos a (by simpa using hd), alia_pos a hl]
    exact ih a s (fun r hr => h r (List.mem_cons_of_mem _ hr))

/-- If every neighbor edge and neighbor node of `n` is already displayed,
`expandAllNeighbors` changes nothing. -/
theorem expandAllNeighbors_noop (n : String) (s : State)
    (h1 : ∀ node, mapGet s.nodes n = some node →
      ∀ rel ∈ node.relations, mapHas s.nodes rel.target = true →
        rel.target ∈ s.displayedNodes ∧
          s.displayedLinks.any
            (fun l => l.id == mkLinkId n rel.target rel.property) = true)
    (h2 : ∀ rev ∈ getReverseRelations n s,
      rev.source ∈ s.displayedNodes ∧
        s.displayedLinks.any
          (fun l => l.id == mkLinkId rev.source n rev.property) = true) :
    expandAllNeighbors n s = s := by
  rw [expandAllNeighbors]
  cases hg : mapGet s.nodes n with
  | none =>
    show (expandAllRevGo n (getReverseRelations n s) false s).2 = s
    rw [expandAllRevGo_noop n (getReverseRelations n s) false s h2]
  | some node =>
    show (expandAllRevGo n
      (getReverseRelations n (expandAllFwdGo n node.relations false s).2)
      (expandAllFwdGo n node.relations false s).1
      (expandAllFwdGo n node.relations false s).2).2 = s
    rw [expandAllFwdGo_noop n node.relations false s (h1 node hg)]
    show (expandAllRevGo n (getReverseRelations n s) false s).2 = s
    rw [expandAllRevGo_noop n (getReverseRelations n s) false s h2]

/-- State characterization of a full `expandAllNeighbors` call: only the two
displayed collections grow. -/
theorem expandAllNeighbors_state (n : String) (s : State) :
    (expandAllNeighbors n s).nodes = s.nodes ∧
      (∃ t, (expandAllNeighbors n s).displayedNodes =
        s.displayedNodes ++ t) ∧
      ∃ u, (expandAllNeighbors n s).displayedLinks =
        s.displayedLinks ++ u := by
  rw [expandAllNeighbors]
  cases hg : mapGet s.nodes n with
  | none =>
    obtain ⟨r1, _, _, _, ⟨t1, ht1⟩, u1, hu1⟩ :=
      expandAllRevGo_state n (getReverseRelations n s) false s
    exact ⟨r1, ⟨t1, ht1⟩, u1, hu1⟩
  | some node =>
    obtain ⟨f1, _, _, _, ⟨tf, htf⟩, uf, huf⟩ :=
      expandAllFwdGo_state n node.relations false s
    obtain ⟨r1, _, _, _, ⟨tr, htr⟩, ur, hur⟩ :=
      expandAllRevGo_state n
        (getReverseRelations n (expandAllFwdGo n node.relations false s).2)
        (expandAllFwdGo n node.relations false s).1
        (expandAllFwdGo n node.relations false s).2
    refine ⟨r1.trans f1, ⟨tf ++ tr, ?_⟩, uf ++ ur, ?_⟩
    · rw [htr, htf, List.append_assoc]
    · rw [hur, huf, List.append_assoc]

/-- C4 amended, part for `expandAllNeighbors`: the second identical call is
a no-op. -/
theorem expandAllNeighbors_idem (n : String) (s : State) :
    expandAllNeighbors n (expandAllNeighbors n s) = expandAllNeighbors n s := by
  obtain ⟨hnodes, ⟨t0, ht0⟩, u0, hu0⟩ := expandAllNeighbors_state n s
  refine expandAllNeighbors_noop n _ ?_ ?_
  · intro node hg2 rel hrel hhas
    rw [hnodes] at hg2 hhas
    have hfirst : expandAllNeighbors n s =
        (expandAllRevGo n
          (getReverseRelations n (expandAllFwdGo n node.relations false s).2)
          (expandAllFwdGo n node.relations false s).1
          (expandAllFwdGo n node.relations false s).2).2 := by
      rw [expandAllNeighbors, hg2]
    obtain ⟨hd, hl⟩ :=
      expandAllFwdGo_post n node.relations false s rel hrel hhas
    obtain ⟨_, _, _, _, ⟨tr, htr⟩, ur, hur⟩ :=
      expandAllRevGo_state n
        (getReverseRelations n (expandAllFwdGo n node.relations false s).2)
        (expandAllFwdGo n node.relations false s).1
        (expandAllFwdGo n node.relations false s).2
    constructor
    · rw [hfirst, htr]
      exact List.mem_append_left _ hd
    · rw [hfirst, hur]
      exact any_append_left hl
  · intro rev hrev
    rw [getReverseRelations_congr hnodes] at hrev
    cases hg2 : mapGet s.nodes n with
    | none =>
      have hfirst : expandAllNeighbors n s =
          (expandAllRevGo n (getReverseRelations n s) false s).2 := by
        rw [expandAllNeighbors, hg2]
      obtain ⟨hd, hl⟩ :=
        expandAllRevGo_post n (getReverseRelations n s) false s rev hrev
      rw [hfirst]
      exact ⟨hd, hl⟩
    | some node =>
      have hfirst : expandAllNeighbors n s =
          (expandAllRevGo n
            (getReverseRelations n
              (expandAllFwdGo n node.relations false s).2)
            (expandAllFwdGo n node.relations false s).1
            (expandAllFwdGo n node.relations false s).2).2 := by
        rw [expandAllNeighbors, hg2]
      obtain ⟨ff1, _, _, _, _, _⟩ :=
        expandAllFwdGo_state n node.relations false s
      have hrev2 : rev ∈ getReverseRelations n
          (expandAllFwdGo n node.relations false s).2 := by
        rw [getReverseRelations_congr ff1]
        exact hrev
      obtain ⟨hd, hl⟩ := expandAllRevGo_post n
        (getReverseRelations n (expandAllFwdGo n node.relations false s).2)
        (expandAllFwdGo n node.relations false s).1
        (expandAllFwdGo n node.relations false s).2 rev hrev2
      rw [hfirst]
      exact ⟨hd, hl⟩

theorem countId_eq_zero_of_any_false {links : List Link} {lid : String}
    (h : links.any (fun l => l.id == lid) = false) : countId lid links = 0 := by
  by_contra hne
  have hpos : 0 < countId lid links := Nat.pos_of_ne_zero hne
  have h2 := anyId_iff_countId.mpr hpos
  rw [h] at h2
  exact Bool.noConfusion h2

theorem selectNode_of_selected {x : String} {s : State}
    (h1 : s.selectedNode = some x) (h2 : s.selectedLink = none) :
    selectNode x s = s := by
  cases s with
  | mk nodes dn dl sn sl csn =>
    have h1' : sn = some x := h1
    have h2' : sl = none := h2
    subst h1'
    subst h2'
    rfl

/-- Pushes guarded by the composite id never duplicate an already-present
id: the reverse-link cascade preserves any positive id count. -/
theorem autoRevGo_countId_preserved (n lid : String) :
    ∀ (revs : List RevRel) (a : Bool) (s : State),
      0 < countId lid s.displayedLinks →
      countId lid (autoRevGo n revs a s).2.displayedLinks =
        countId lid s.displayedLinks := by
  intro revs
  induction revs with
  | nil =>
    intro a s _
    rfl
  | cons rev rest ih =>
    intro a s hpos
    rw [autoRevGo]
    split
    · cases hany : s.displayedLinks.any
          (fun l => l.id == (mkRevLink n rev).id) with
      | true =>
        rw [alia_pos a hany]
        exact ih a s hpos
      | false =>
        rw [alia_neg a hany]
        have hne : ¬ (mkRevLink n rev).id = lid := by
          intro heq
          rw [heq] at hany
          rw [countId_eq_zero_of_any_false hany] at hpos
          exact Nat.lt_irrefl 0 hpos
        have hstep : countId lid
            ({ s with displayedLinks :=
              s.displayedLinks ++ [mkRevLink n rev] } : State).displayedLinks =
              countId lid s.displayedLinks := by
          show countId lid (s.displayedLinks ++ [mkRevLink n rev]) = _
          rw [countId_append, countId_singleton, if_neg hne]
          exact Nat.add_zero _
        rw [ih true _ (by rw [hstep]; exact hpos), hstep]
    · exact ih a s hpos

/-- The id-guarded push step leaves exactly one link with the pushed id when
at most one was present before. -/
theorem alia_countId_same {lnk : Link} {lid : String} (a : Bool) (s : State)
    (heq : lnk.id = lid)
    (h : countId lid s.displayedLinks ≤ 1) :
    countId lid (addLinkIfAbsentFlag lnk a s).2.displayedLinks = 1 := by
  rw [addLinkIfAbsentFlag]
  split
  next hany =>
    rw [heq] at hany
    have hpos := anyId_iff_countId.mp hany
    show countId lid s.displayedLinks = 1
    omega
  next hany =>
    show countId lid (s.displayedLinks ++ [lnk]) = 1
    rw [countId_append, countId_singleton, if_pos heq]
    have hzero : countId lid s.displayedLinks = 0 := by
      refine countId_eq_zero_of_any_false ?_
      cases h2 : s.displayedLinks.any (fun l => l.id == lid) with
      | false => rfl
      | true =>
        rw [heq] at hany
        exact absurd h2 hany
    omega

/-- `addRelationToGraph` leaves the target displayed, the edge present, and
the target selected. -/
theorem addRelationToGraph_post (so : String) (rel : Relation) (s : State) :
    rel.target ∈ (addRelationToGraph so rel s).displayedNodes ∧
      (addRelationToGraph so rel s).displayedLinks.any
        (fun l => l.id == mkLinkId so rel.target rel.property) = true ∧
      (addRelationToGraph so rel s).selectedNode = some rel.target ∧
      (addRelationToGraph so rel s).selectedLink = none := by
  rw [addRelationToGraph]
  split
  next hcont =>
    obtain ⟨_, a2, _, _, _, _⟩ := alia_state (relLink so rel) false s
    refine ⟨?_, ?_, rfl, rfl⟩
    · show rel.target ∈
        (addLinkIfAbsentFlag (relLink so rel) false s).2.displayedNodes
      rw [a2]
      simpa using hcont
    · exact alia_present (relLink so rel) false s
  next hcont =>
    obtain ⟨r1, r2, _, _, _, ur, hur⟩ :=
      autoRevGo_state rel.target
        (getReverseRelations rel.target
          (addLinkIfAbsentFlag (relLink so rel) false
            { s with displayedNodes :=
              addToSet s.displayedNodes rel.target }).2) false
        (addLinkIfAbsentFlag (relLink so rel) false
          { s with displayedNodes :=
            addToSet s.displayedNodes rel.target }).2
    obtain ⟨_, a2, _, _, _, _⟩ := alia_state (relLink so rel) false
      { s with displayedNodes := addToSet s.displayedNodes rel.target }
    have r2' : (autoAddReverseLinks rel.target
        (addLinkIfAbsentFlag (relLink so rel) false
          { s with displayedNodes :=
            addToSet s.displayedNodes rel.target }).2).2.displayedNodes =
        (addLinkIfAbsentFlag (relLink so rel) false
          { s with displayedNodes :=
            addToSet s.displayedNodes rel.target }).2.displayedNodes := r2
    have hur' : (autoAddReverseLinks rel.target
        (addLinkIfAbsentFlag (relLink so rel) false
          { s with displayedNodes :=
            addToSet s.displayedNodes rel.target }).2).2.displayedLinks =
        (addLinkIfAbsentFlag (relLink so rel) false
          { s with displayedNodes :=
            addToSet s.displayedNodes rel.target }).2.displayedLinks ++ ur :=
      hur
    refine ⟨?_, ?_, rfl, rfl⟩
    · show rel.target ∈ (autoAddReverseLinks rel.target
        (addLinkIfAbsentFlag (relLink so rel) false
          { s with displayedNodes :=
            addToSet s.displayedNodes rel.target }).2).2.displayedNodes
      rw [r2', a2]
      exact self_mem_addToSet
    · show (autoAddReverseLinks rel.target
        (addLinkIfAbsentFlag (relLink so rel) false
          { s with displayedNodes :=
            addToSet s.displayedNodes rel.target }).2).2.displayedLinks.any
        (fun l => l.id == mkLinkId so rel.target rel.property) = true
      rw [hur']
      exact any_append_left (alia_present (relLink so rel) false _)

/-- If the target is displayed, the edge is present and the target already
selected, `addRelationToGraph` changes nothing. -/
theorem addRelationToGraph_noop (so : String) (rel : Relation) (s : State)
    (h1 : rel.target ∈ s.displayedNodes)
    (h2 : s.displayedLinks.any
      (fun l => l.id == mkLinkId so rel.target rel.property) = true)
    (h3 : s.selectedNode = some rel.target)
    (h4 : s.selectedLink = none) :
    addRelationToGraph so rel s = s := by
  rw [addRelationToGraph, if_pos (by simpa using h1)]
  rw [alia_pos false h2]
  exact selectNode_of_selected h3 h4

/-- C4 amended, part for `addRelationToGraph`: the second identical call is
a no-op. -/
theorem addRelationToGraph_idem (so : String) (rel : Relation) (s : State) :
    addRelationToGraph so rel (addRelationToGraph so rel s) =
      addRelationToGraph so rel s := by
  obtain ⟨h1, h2, h3, h4⟩ := addRelationToGraph_post so rel s
  exact addRelationToGraph_noop so rel _ h1 h2 h3 h4

/-- `addRelationToGraph` leaves exactly one link with its composite id when
at most one was present before. -/
theorem addRelationToGraph_countId (so : String) (rel : Relation) (s : State)
    (h : countId (mkLinkId so rel.target rel.property) s.displayedLinks ≤ 1) :
    countId (mkLinkId so rel.target rel.property)
      (addRelationToGraph so rel s).displayedLinks = 1 := by
  rw [addRelationToGraph]
  split
  · show countId (mkLinkId so rel.target rel.property)
      (addLinkIfAbsentFlag (relLink so rel) false s).2.displayedLinks = 1
    exact alia_countId_same false s rfl h
  · have hone : countId (mkLinkId so rel.target rel.property)
        (addLinkIfAbsentFlag (relLink so rel) false
          { s with displayedNodes :=
            addToSet s.displayedNodes rel.target }).2.displayedLinks = 1 :=
      alia_countId_same false _ rfl h
    have hpres : countId (mkLinkId so rel.target rel.property)
        (autoAddReverseLinks rel.target
          (addLinkIfAbsentFlag (relLink so rel) false
            { s with displayedNodes :=
              addToSet s.displayedNodes rel.target }).2).2.displayedLinks =
        countId (mkLinkId so rel.target rel.property)
          (addLinkIfAbsentFlag (relLink so rel) false
            { s with displayedNodes :=
              addToSet s.displayedNodes rel.target }).2.displayedLinks :=
      autoRevGo_countId_preserved rel.target _ _ false _
        (by rw [hone]; exact Nat.one_pos)
    show countId (mkLinkId so rel.target rel.property)
      (autoAddReverseLinks rel.target
        (addLinkIfAbsentFlag (relLink so rel) false
          { s with displayedNodes :=
            addToSet s.displayedNodes rel.target }).2).2.displayedLinks = 1
    rw [hpres, hone]

/-- Node map with two relations of `A` whose distinct (target, property)
pairs concatenate to the same composite id `A-B-x-p`. -/
def c4CollisionNodes : List (String × Node) :=
  [("A",
    { id := "A", name := "A", type := "object", umsType := "default",
      description := "", properties := [], required := [], recommended := [],
      relations :=
        [{ type := "composition", target := "B-x", property := "p",
           isArray := false, via := none, description := "" },
         { type := "composition", target := "B", property := "x-p",
           isArray := false, via := none, description := "" }] }),
   ("B-x",
    { id := "B-x", name := "Bx", type := "object", umsType := "default",
      description := "", properties := [], required := [], recommended := [],
      relations := [] }),
   ("B",
    { id := "B", name := "B", type := "object", umsType := "default",
      description := "", properties := [], required := [], recommended := [],
      relations := [] })]

/-- C4 counterexample: `expandNode` dedups by the (source, target, property)
triple, not by the composite id, so two distinct relations whose components
concatenate to the same id (`A`→`B-x` via `p` and `A`→`B` via `x-p`, both
giving `A-B-x-p`) each get a link: calling `expandNode("A", 1)` twice with
identical arguments leaves TWO displayed links with that composite id, not
exactly one. -/
theorem expandNode_composite_id_not_unique :
    countId "A-B-x-p"
      (expandNode "A" 1 (expandNode "A" 1
        (freshState c4CollisionNodes "Document"))).displayedLinks = 2 := by
  decide

/-- C4 amended: calling any add-edge operation twice with identical
arguments has the same effect as calling it once (the second call is a no-op
and, for the auto-link operations, reports that nothing was added).  For the
operations that dedup by the composite id — here `addRelationToGraph` as the
id-guarded representative — a state holding at most one link with the
composite id of the arguments ends with exactly one such link; `expandNode`
dedups by the (source, target, property) triple instead, so colliding ids
(see the counterexample) can coexist even though re-running it adds
nothing. -/
theorem add_edge_ops_idempotent (n so : String) (rel : Relation) (d : Nat)
    (s : State) :
    expandNode n d (expandNode n d s) = expandNode n d s ∧
      autoAddReverseLinks n (autoAddReverseLinks n s).2 =
        (false, (autoAddReverseLinks n s).2) ∧
      autoAddForwardLinks n (autoAddForwardLinks n s).2 =
        (false, (autoAddForwardLinks n s).2) ∧
      expandAllNeighbors n (expandAllNeighbors n s) = expandAllNeighbors n s ∧
      addRelationToGraph so rel (addRelationToGraph so rel s) =
        addRelationToGraph so rel s ∧
      (countId (mkLinkId so rel.target rel.property) s.displayedLinks ≤ 1 →
        countId (mkLinkId so rel.target rel.property)
          (addRelationToGraph so rel
            (addRelationToGraph so rel s)).displayedLinks = 1) :=
  ⟨expandNode_idem n d s, autoAddReverseLinks_idem n s,
    autoAddForwardLinks_idem n s, expandAllNeighbors_idem n s,
    addRelationToGraph_idem so rel s,
    fun h => by
      rw [addRelationToGraph_idem]
      exact addRelationToGraph_countId so rel s h⟩

/-- Witness for the amended C4: double insertion of a concrete relation
leaves exactly one link with its composite id. -/
theorem add_edge_ops_idempotent_witness :
    countId (mkLinkId "Root" "A" "pa")
        (freshState c3Nodes "Document").displayedLinks ≤ 1 ∧
      countId (mkLinkId "Root" "A" "pa")
        (addRelationToGraph "Root"
          { type := "composition", target := "A", property := "pa",
            isArray := false, via := none, description := "" }
          (addRelationToGraph "Root"
            { type := "composition", target := "A", property := "pa",
              isArray := false, via := none, description := "" }
            (freshState c3Nodes "Document"))).displayedLinks = 1 :=
  ⟨by decide,
    (add_edge_ops_idempotent "Root" "Root"
      { type := "composition", target := "A", property := "pa",
        isArray := false, via := none, description := "" }
      1 (freshState c3Nodes "Document")).2.2.2.2.2 (by decide)⟩

/-- The displayed-node set only holds keys of the parsed node map. -/
def displayedSubsetInv (s : State) : Prop :=
  ∀ x ∈ s.displayedNodes, mapHas s.nodes x = true

instance (s : State) : Decidable (displayedSubsetInv s) := by
  unfold displayedSubsetInv
  exact List.decidableBAll _ _

theorem mapHas_of_mem_entry {m : List (String × Node)} {p : String × Node}
    (h : p ∈ m) : mapHas m p.1 = true :=
  List.any_eq_true.mpr ⟨p, h, by simp⟩

/-- The expansion recursion only ever adds parsed ids to the displayed set. -/
theorem expand_subset_inv (d : Nat) :
    (∀ n s, displayedSubsetInv s → displayedSubsetInv (expandNode n d s)) ∧
      (∀ n rel s, displayedSubsetInv s →
        displayedSubsetInv (expandStep n d rel s)) ∧
      (∀ n rels s, displayedSubsetInv s →
        displayedSubsetInv (expandRels n d rels s)) := by
  induction d with
  | zero =>
    have hQ : ∀ n s, displayedSubsetInv s →
        displayedSubsetInv (expandNode n 0 s) := by
      intro n s h x hx
      rw [(expandNode_extends n 0 s).nodes_eq]
      rw [expandNode_zero_displayed] at hx
      split at hx
      next hh =>
        rcases mem_addToSet.mp hx with h1 | rfl
        · exact h x h1
        · exact hh
      next => exact h x hx
    have hS : ∀ n rel s, displayedSubsetInv s →
        displayedSubsetInv (expandStep n 0 rel s) := by
      intro n rel s h
      rw [expandStep_eq]
      split
      next hhas =>
        have hpush : displayedSubsetInv (expandPushLink n rel s) := by
          intro x hx
          rw [expandPushLink_nodes]
          rw [expandPushLink_displayed] at hx
          exact h x hx
        split
        · exact hpush
        · exact hQ rel.target _ hpush
      next => exact h
    refine ⟨hQ, hS, ?_⟩
    intro n rels
    induction rels with
    | nil =>
      intro s h
      rw [expandRels_nil_eq]
      exact h
    | cons rel rest ih =>
      intro s h
      rw [expandRels_cons_eq]
      exact ih _ (hS n rel s h)
  | succ d ihd =>
    have hQ : ∀ n s, displayedSubsetInv s →
        displayedSubsetInv (expandNode n (d + 1) s) := by
      intro n s h
      rw [expandNode_eq]
      cases hg : mapGet s.nodes n with
      | none => exact h
      | some node =>
        refine ihd.2.2 n node.relations _ ?_
        intro x hx
        rcases mem_addToSet.mp hx with h1 | rfl
        · exact h x h1
        · exact mapHas_of_mapGet hg
    have hS : ∀ n rel s, displayedSubsetInv s →
        displayedSubsetInv (expandStep n (d + 1) rel s) := by
      intro n rel s h
      rw [expandStep_eq]
      split
      next hhas =>
        have hpush : displayedSubsetInv (expandPushLink n rel s) := by
          intro x hx
          rw [expandPushLink_nodes]
          rw [expandPushLink_displayed] at hx
          exact h x hx
        split
        · exact hpush
        · exact hQ rel.target _ hpush
      next => exact h
    refine ⟨hQ, hS, ?_⟩
    intro n rels
    induction rels with
    | nil =>
      intro s h
      rw [expandRels_nil_eq]
      exact h
    | cons rel rest ih =>
      intro s h
      rw [expandRels_cons_eq]
      exact ih _ (hS n rel s h)

theorem autoAddReverseLinks_subset_inv (n : String) (s : State)
    (h : displayedSubsetInv s) :
    displayedSubsetInv (autoAddReverseLinks n s).2 := by
  obtain ⟨h1, h2, _, _, _, _, _⟩ :=
    autoRevGo_state n (getReverseRelations n s) false s
  intro x hx
  have h1' : (autoAddReverseLinks n s).2.nodes = s.nodes := h1
  have h2' : (autoAddReverseLinks n s).2.displayedNodes = s.displayedNodes :=
    h2
  rw [h1']
  rw [h2'] at hx
  exact h x hx

theorem autoAddForwardLinks_subset_inv (n : String) (s : State)
    (h : displayedSubsetInv s) :
    displayedSubsetInv (autoAddForwardLinks n s).2 := by
  rw [autoAddForwardLinks]
  cases hg : mapGet s.nodes n with
  | none => exact h
  | some node =>
    obtain ⟨h1, h2, _, _, _, _, _⟩ := autoFwdGo_state n node.relations false s
    intro x hx
    rw [h1]
    rw [h2] at hx
    exact h x hx

theorem expandAllFwdGo_subset_inv (nodeId : String) :
    ∀ (rels : List Relation) (a : Bool) (s : State),
      displayedSubsetInv s →
      displayedSubsetInv (expandAllFwdGo nodeId rels a s).2 := by
  intro rels
  induction rels with
  | nil =>
    intro a s h
    exact h
  | cons rel rest ih =>
    intro a s h
    rw [expandAllFwdGo]
    split
    next hhas =>
      refine ih _ _ ?_
      intro x hx
      obtain ⟨a1, a2, _, _, _, _⟩ :=
        alia_state (relLink nodeId rel) (addNodeIfAbsentFlag rel.target a s).1
          (addNodeIfAbsentFlag rel.target a s).2
      obtain ⟨n1, _, _, _, _, _⟩ := ania_state rel.target a s
      rw [a1.trans n1]
      rw [a2] at hx
      rw [addNodeIfAbsentFlag] at hx
      split at hx
      · exact h x hx
      · rcases mem_addToSet.mp hx with h1 | rfl
        · exact h x h1
        · exact hhas
    next => exact ih a s h
  -- the `addNodeIfAbsentFlag` projection in hx reduces definitionally

theorem expandAllRevGo_subset_inv (nodeId : String) :
    ∀ (revs : List RevRel) (a : Bool) (s : State),
      (∀ rev ∈ revs, mapHas s.nodes rev.source = true) →
      displayedSubsetInv s →
      displayedSubsetInv (expandAllRevGo nodeId revs a s).2 := by
  intro revs
  induction revs with
  | nil =>
    intro a s _ h
    exact h
  | cons rev rest ih =>
    intro a s hsrc h
    rw [expandAllRevGo]
    obtain ⟨a1, a2, _, _, _, _⟩ :=
      alia_state (mkRevLink nodeId rev) (addNodeIfAbsentFlag rev.source a s).1
        (addNodeIfAbsentFlag rev.source a s).2
    obtain ⟨n1, _, _, _, _, _⟩ := ania_state rev.source a s
    refine ih _ _ ?_ ?_
    · intro rv hrv
      rw [a1.trans n1]
      exact hsrc rv (List.mem_cons_of_mem _ hrv)
    · intro x hx
      rw [a1.trans n1]
      rw [a2] at hx
      rw [addNodeIfAbsentFlag] at hx
      split at hx
      · exact h x hx
      · rcases mem_addToSet.mp hx with h1 | rfl
        · exact h x h1
        · exact hsrc rev (List.mem_cons_self _ _)

theorem getReverseRelations_source_has {nodeId : String} {s : State}
    {rev : RevRel} (h : rev ∈ getReverseRelations nodeId s) :
    mapHas s.nodes rev.source = true := by
  obtain ⟨p, hp, _, r, _, _, hmk⟩ := mem_getReverseRelations.mp h
  have := mapHas_of_mem_entry hp
  rw [hmk]
  exact this

theorem expandAllNeighbors_subset_inv (n : String) (s : State)
    (h : displayedSubsetInv s) :
    displayedSubsetInv (expandAllNeighbors n s) := by
  rw [expandAllNeighbors]
  cases hg : mapGet s.nodes n with
  | none =>
    exact expandAllRevGo_subset_inv n (getReverseRelations n s) false s
      (fun rev hrev => getReverseRelations_source_has hrev) h
  | some node =>
    obtain ⟨f1, _, _, _, _, _⟩ := expandAllFwdGo_state n node.relations false s
    refine expandAllRevGo_subset_inv n _ _ _ ?_
      (expandAllFwdGo_subset_inv n node.relations false s h)
    intro rev hrev
    rw [f1]
    rw [getReverseRelations_congr f1] at hrev
    exact getReverseRelations_source_has hrev

theorem addRelationToGraph_subset_inv (so : String) (rel : Relation)
    (s : State) (hrel : mapHas s.nodes rel.target = true)
    (h : displayedSubsetInv s) :
    displayedSubsetInv (addRelationToGraph so rel s) := by
  rw [addRelationToGraph]
  split
  next hcont =>
    intro x hx
    obtain ⟨a1, a2, _, _, _, _⟩ := alia_state (relLink so rel) false s
    show mapHas (addLinkIfAbsentFlag (relLink so rel) false s).2.nodes x = true
    rw [a1]
    have hx2 : x ∈
        (addLinkIfAbsentFlag (relLink so rel) false s).2.displayedNodes := hx
    rw [a2] at hx2
    exact h x hx2
  next hcont =>
    intro x hx
    obtain ⟨r1, r2, _, _, _, _, _⟩ :=
      autoRevGo_state rel.target
        (getReverseRelations rel.target
          (addLinkIfAbsentFlag (relLink so rel) false
            { s with displayedNodes :=
              addToSet s.displayedNodes rel.target }).2) false
        (addLinkIfAbsentFlag (relLink so rel) false
          { s with displayedNodes :=
            addToSet s.displayedNodes rel.target }).2
    obtain ⟨a1, a2, _, _, _, _⟩ := alia_state (relLink so rel) false
      { s with displayedNodes := addToSet s.displayedNodes rel.target }
    show mapHas (autoAddReverseLinks rel.target
      (addLinkIfAbsentFlag (relLink so rel) false
        { s with displayedNodes :=
          addToSet s.displayedNodes rel.target }).2).2.nodes x = true
    have hx2 : x ∈ (autoAddReverseLinks rel.target
        (addLinkIfAbsentFlag (relLink so rel) false
          { s with displayedNodes :=
            addToSet s.displayedNodes rel.target }).2).2.displayedNodes := hx
    have r2' : (autoAddReverseLinks rel.target
        (addLinkIfAbsentFlag (relLink so rel) false
          { s with displayedNodes :=
            addToSet s.displayedNodes rel.target }).2).2.displayedNodes =
        (addLinkIfAbsentFlag (relLink so rel) false
          { s with displayedNodes :=
            addToSet s.displayedNodes rel.target }).2.displayedNodes := r2
    have r1' : (autoAddReverseLinks rel.target
        (addLinkIfAbsentFlag (relLink so rel) false
          { s with displayedNodes :=
            addToSet s.displayedNodes rel.target }).2).2.nodes =
        (addLinkIfAbsentFlag (relLink so rel) false
          { s with displayedNodes :=
            addToSet s.displayedNodes rel.target }).2.nodes := r1
    rw [r1', a1]
    rw [r2', a2] at hx2
    rcases mem_addToSet.mp hx2 with h1 | rfl
    · exact h x h1
    · exact hrel

theorem runSelections_subset_inv (cs : List SelectionCall) (s : State)
    (h : displayedSubsetInv s) :
    displayedSubsetInv (runSelections s cs) := by
  induction cs generalizing s with
  | nil => exact h
  | cons c rest ih =>
    cases c with
    | node id => exact ih (selectNode id s) h
    | link id => exact ih (selectLink id s) h

/-- State for the C7 counterexample: a parsed map holding only the root. -/
def c7State : State :=
  freshState
    [("Document",
      { id := "Document", name := "Document", type := "object",
        umsType := "root", description := "", properties := [],
        required := [], recommended := [], relations := [] })] "Document"

/-- C7 counterexample: the URL link-restoration block adds the ids parsed
out of the `link` query parameter to the displayed set without any node-map
existence check, so `displayedNodes ⊆ keys(nodes)` is violated: `X` and `Y`
become displayed although neither is a parsed node. -/
theorem restoreLinkFromURL_breaks_subset :
    displayedSubsetInv c7State ∧
      "X" ∈ (restoreLinkFromURL "X-Y-p" c7State).displayedNodes ∧
      "Y" ∈ (restoreLinkFromURL "X-Y-p" c7State).displayedNodes ∧
      mapHas (restoreLinkFromURL "X-Y-p" c7State).nodes "X" = false ∧
      ¬ displayedSubsetInv (restoreLinkFromURL "X-Y-p" c7State) := by
  refine ⟨by decide, by decide, by decide, by decide, by decide⟩

/-- C7 amended: the expansion, auto-link and selection operations preserve
`displayedNodes ⊆ keys(nodes)` (`addRelationToGraph` under the parsed-schema
guarantee that the relation's target is a parsed node), but the URL
link-restoration on load adds unchecked ids and can break the invariant
(see the counterexample). -/
theorem displayed_subset_invariant (n so : String) (rel : Relation) (d : Nat)
    (cs : List SelectionCall) (s : State) (h : displayedSubsetInv s) :
    displayedSubsetInv (expandNode n d s) ∧
      displayedSubsetInv (expandAllNeighbors n s) ∧
      displayedSubsetInv (autoAddReverseLinks n s).2 ∧
      displayedSubsetInv (autoAddForwardLinks n s).2 ∧
      displayedSubsetInv (runSelections s cs) ∧
      (mapHas s.nodes rel.target = true →
        displayedSubsetInv (addRelationToGraph so rel s)) :=
  ⟨(expand_subset_inv d).1 n s h,
    expandAllNeighbors_subset_inv n s h,
    autoAddReverseLinks_subset_inv n s h,
    autoAddForwardLinks_subset_inv n s h,
    runSelections_subset_inv cs s h,
    fun hrel => addRelationToGraph_subset_inv so rel s hrel h⟩

/-- Witness for the amended C7 on a concrete expansion. -/
theorem displayed_subset_invariant_witness :
    displayedSubsetInv (freshState c3Nodes "Document") ∧
      displayedSubsetInv
        (expandNode "Root" 1 (freshState c3Nodes "Document")) :=
  ⟨by decide,
    (displayed_subset_invariant "Root" "Root"
      { type := "composition", target := "A", property := "pa",
        isArray := false, via := none, description := "" }
      1 [] (freshState c3Nodes "Document") (by decide)).1⟩

/-- State for the C8 counterexample: `P` is displayed, carries a
self-referencing relation, and no link is displayed yet. -/
def c8State : State :=
  { nodes := [("P", selfLoopNode)]
    displayedNodes := ["P"]
    displayedLinks := []
    selectedNode := none
    selectedLink := none
    currentSchemaName := "Document" }

/-- C8 counterexample: `autoAddReverseLinks` does NOT consider the node id
itself — `getReverseRelations` skips `sourceId === nodeId`.  Node `P` has a
self-referencing relation, `P` is displayed and the edge is absent, so by the
claim the edge would be added and `true` returned; the code adds nothing and
returns `false`. -/
theorem autoAddReverseLinks_skips_self :
    ("P" ∈ c8State.displayedNodes ∧
      ∃ p ∈ c8State.nodes, p.1 = "P" ∧ ∃ r ∈ p.2.relations, r.target = "P") ∧
      (autoAddReverseLinks "P" c8State).1 = false ∧
      (autoAddReverseLinks "P" c8State).2.displayedLinks = [] := by
  refine ⟨⟨by decide, ?_⟩, by decide, by decide⟩
  exact ⟨("P", selfLoopNode), by decide, by decide⟩

/-- C8 amended: `autoAddReverseLinks(id)` considers all nodes OTHER than `id`
itself whose relations target `id` (self-referencing relations of `id` are
skipped by `getReverseRelations`); for each such source node already in the
displayed set it adds the corresponding edge if absent, it changes nothing
else, and its return value is true if and only if at least one edge was
newly added. -/
theorem autoAddReverseLinks_spec (nodeId : String) (s : State) :
    (autoAddReverseLinks nodeId s).2.nodes = s.nodes ∧
      (autoAddReverseLinks nodeId s).2.displayedNodes = s.displayedNodes ∧
      (autoAddReverseLinks nodeId s).2.selectedNode = s.selectedNode ∧
      (autoAddReverseLinks nodeId s).2.selectedLink = s.selectedLink ∧
      ((autoAddReverseLinks nodeId s).1 = true ↔
        s.displayedLinks.length <
          (autoAddReverseLinks nodeId s).2.displayedLinks.length) ∧
      ((autoAddReverseLinks nodeId s).1 = false →
        (autoAddReverseLinks nodeId s).2 = s) ∧
      (∀ l ∈ (autoAddReverseLinks nodeId s).2.displayedLinks,
        l ∈ s.displayedLinks ∨
          (l.target = nodeId ∧ ¬ l.source = nodeId ∧
            l.source ∈ s.displayedNodes ∧
            ∃ p ∈ s.nodes, p.1 = l.source ∧ ∃ r ∈ p.2.relations,
              r.target = nodeId ∧ r.property = l.property)) ∧
      (∀ p ∈ s.nodes, ¬ p.1 = nodeId → p.1 ∈ s.displayedNodes →
        ∀ r ∈ p.2.relations, r.target = nodeId →
          (autoAddReverseLinks nodeId s).2.displayedLinks.any
            (fun l => l.id == mkLinkId p.1 nodeId r.property) = true) := by
  obtain ⟨h1, h2, h3, h4, _, u, hu⟩ :=
    autoRevGo_state nodeId (getReverseRelations nodeId s) false s
  refine ⟨h1, h2, h3, h4, ?_, ?_, ?_, ?_⟩
  · have := autoRevGo_added_iff nodeId (getReverseRelations nodeId s) false s
    simpa [autoAddReverseLinks] using this
  · exact autoRevGo_unchanged nodeId (getReverseRelations nodeId s) false s
  · intro l hl
    rcases autoRevGo_links_sound nodeId (getReverseRelations nodeId s) false s
        l hl with h | ⟨rev, hrev, hd, he⟩
    · exact Or.inl h
    · obtain ⟨p, hp, hid, r, hr, hrt, hmk⟩ :=
        mem_getReverseRelations.mp hrev
      subst hmk
      refine Or.inr ⟨by simp [he, mkRevLink], ?_, ?_, p, hp, ?_, r, hr, hrt, ?_⟩
      · simpa [he, mkRevLink] using hid
      · simpa [he, mkRevLink] using hd
      · simp [he, mkRevLink]
      · simp [he, mkRevLink]
  · intro p hp hid hdisp r hr hrt
    have hrev : RevRel.mk p.1 p.2.name r.type r.property r.isArray r.via
        r.description ∈ getReverseRelations nodeId s :=
      mem_getReverseRelations.mpr ⟨p, hp, hid, r, hr, hrt, rfl⟩
    exact autoRevGo_links_complete nodeId (getReverseRelations nodeId s)
      false s _ hrev hdisp

/-- A node `Q` with a relation targeting `P`. -/
def c8WitnessSource : Node :=
  { id := "Q"
    name := "Q"
    type := "object"
    umsType := "default"
    description := ""
    properties := []
    required := []
    recommended := []
    relations := [{ type := "association", target := "P", property := "owner",
                    isArray := false, via := none, description := "" }] }

/-- State for the C8 witness: `P` and `Q` are displayed, `Q` targets `P`. -/
def c8WitnessState : State :=
  { nodes := [("P", selfLoopNode), ("Q", c8WitnessSource)]
    displayedNodes := ["P", "Q"]
    displayedLinks := []
    selectedNode := none
    selectedLink := none
    currentSchemaName := "Document" }

/-- Witness for the amended C8: on a concrete state, the reverse edge from a
displayed source is present after the call. -/
theorem autoAddReverseLinks_spec_witness :
    (autoAddReverseLinks "P" c8WitnessState).2.displayedLinks.any
      (fun l => l.id == mkLinkId "Q" "P" "owner") = true :=
  (autoAddReverseLinks_spec "P" c8WitnessState).2.2.2.2.2.2.2
    ("Q", c8WitnessSource) (by decide) (by decide) (by decide)
    { type := "association", target := "P", property := "owner",
      isArray := false, via := none, description := "" }
    (by decide) (by decide)

/-- C10: for a node id that is not a key of the parsed node map,
`selectNode` still overwrites the selection state before its existence check
returns: `selectedNode` becomes the unknown id, `selectedLink` becomes null,
and every other state field is unchanged. -/
theorem selectNode_unknown_id_overwrites (s : State) (nodeId : String)
    (h : mapHas s.nodes nodeId = false) :
    selectNode nodeId s =
      { s with selectedNode := some nodeId, selectedLink := none } :=
  rfl

/-- Witness for C10: selecting a bogus id on the initial state. -/
theorem selectNode_unknown_id_overwrites_witness :
    mapHas initialState.nodes "Bogus" = false ∧
      selectNode "Bogus" initialState =
        { initialState with selectedNode := some "Bogus",
                            selectedLink := none } :=
  ⟨by decide, selectNode_unknown_id_overwrites initialState "Bogus" (by decide)⟩

/-! ### Schema parsing (parser.js: parseSchema, extractRelations) -/

/-- A JSON-Schema object as read by the parser (the root schema or one
definition), restricted to the fields `parseSchema` reads: `title`, `type`,
`description`, `x-ums-type`, `properties`, `required`, `x-recommended`.
`none` models an absent field.  The `examples`/`example` and `x-` extension
fields feed only the elided `examples`/`xProperties`/`rawSchema` node
fields. -/
structure SchemaObj where
  title : Option String
  type : Option String
  description : Option String
  xUmsType : Option String
  properties : Option (List (String × PropDef))
  required : Option (List String)
  xRecommended : Option (List String)
deriving DecidableEq

/-- A schema document: the root object plus `schema.definitions || {}` in
`Object.entries` order (absent definitions modeled as the empty list). -/
structure SchemaDoc where
  root : SchemaObj
  definitions : List (String × SchemaObj)
deriving DecidableEq

/-- `name.replace(/([A-Z])/g, ' $1')` (utils.js `formatName`): a space is
inserted before every ASCII uppercase letter. -/
def spaceBeforeCaps : List Char → List Char
  | [] => []
  | c :: rest =>
    if c.isUpper then ' ' :: c :: spaceBeforeCaps rest
    else c :: spaceBeforeCaps rest

/-- `.replace(/^./, (str) => str.toUpperCase())`: the first character is
uppercased (a no-op on the empty string). -/
def upperFirst : List Char → List Char
  | [] => []
  | c :: rest => c.toUpper :: rest

/-- `.trim()`: leading and trailing whitespace removed (ASCII whitespace;
only plain spaces can occur on this code path). -/
def trimChars (l : List Char) : List Char :=
  ((l.dropWhile (fun c => c.isWhitespace)).reverse.dropWhile
    (fun c => c.isWhitespace)).reverse

/-- `formatName` (utils.js): camelCase/PascalCase to a readable name. -/
def formatName (name : String) : String :=
  String.mk (trimChars (upperFirst (spaceBeforeCaps name.toList)))

/-- `mapUmsType` (parser.js): maps `x-ums-type` to an internal category.
The JavaScript `!type` / `type || 'root'` falsiness tests are the
empty-string tests (the call sites always pass a string). -/
def mapUmsType (type : String) (id : String) (isRoot : Bool) : String :=
  if isRoot && type == "" then "root"
  else if type == "embedded" || type == "custom" then "subentity"
  else if type == "ignore" then
    if id.toList.take 6 == "System".toList then "external_ownership"
    else "ephemeral"
  else if type == "" then "root"
  else type

/-- JavaScript `\w` (`[A-Za-z0-9_]`). -/
def isWordChar (c : Char) : Bool :=
  c.isAlpha || c.isDigit || c == '_'

/-- The maximal `\w*` run at the head of the list. -/
def takeWordRun : List Char → List Char
  | [] => []
  | c :: rest => if isWordChar c then c :: takeWordRun rest else []

def startsWithChars : List Char → List Char → Bool
  | [], _ => true
  | _ :: _, [] => false
  | p :: ps, c :: cs => p == c && startsWithChars ps cs

/-- Regex search for `#\/definitions\/(\w+)`: the first position where the
literal marker is followed by at least one word character wins, and the
capture is the maximal word-character run there (the regex engine keeps
searching past a marker occurrence with no word character after it). -/
def scanRefTarget (marker : List Char) : List Char → Option (List Char)
  | [] => none
  | c :: rest =>
    if startsWithChars marker (c :: rest) then
      match takeWordRun (List.drop marker.length (c :: rest)) with
      | [] => scanRefTarget marker rest
      | d :: ds => some (d :: ds)
    else scanRefTarget marker rest

def refMarker : List Char := "#/definitions/".toList

/-- `extractRefTarget` (parser.js): `ref.match(/#\/definitions\/(\w+)/)`,
returning the captured definition name or null. -/
def extractRefTarget (ref : String) : Option String :=
  (scanRefTarget refMarker ref.toList).map (fun l => String.mk l)

/-- `extractAssociationTarget` (parser.js): same regex on an
`x-association-target` entry. -/
def extractAssociationTarget (target : String) : Option String :=
  (scanRefTarget refMarker target.toList).map (fun l => String.mk l)

/-- The relation pushed by the two `$ref` sites of `extractRelations`
(no `via` field on compositions). -/
def compositionRel (propName target description : String)
    (isArray : Bool) : Relation :=
  { type := "composition", target := target, property := propName,
    isArray := isArray, via := none, description := description }

/-- The relation pushed by the two `x-association-target` sites. -/
def associationRel (propName target via description : String)
    (isArray : Bool) : Relation :=
  { type := "association", target := target, property := propName,
    isArray := isArray, via := some via, description := description }

/-- Push site 1 of `extractRelations`: direct `$ref` (composition).  The
`if (propDef.$ref)` guard treats an absent or empty ref as falsy, and the
relation is recorded only under `target && allNodes.has(target)`. -/
def refRel (allNodes : List (String × Node)) (propName : String)
    (p : PropDef) : List Relation :=
  match p.ref with
  | none => []
  | some ref =>
    if ref == "" then []
    else
      match extractRefTarget ref with
      | none => []
      | some target =>
        if mapHas allNodes target then
          [compositionRel propName target (jsOr p.description "") false]
        else []

/-- Push site 2: `items.$ref` (array composition). -/
def itemsRefRel (allNodes : List (String × Node)) (propName : String)
    (p : PropDef) : List Relation :=
  match p.items with
  | none => []
  | some it =>
    match it.ref with
    | none => []
    | some ref =>
      if ref == "" then []
      else
        match extractRefTarget ref with
        | none => []
        | some target =>
          if mapHas allNodes target then
            [compositionRel propName target (jsOr p.description "") true]
          else []

/-- One iteration of the `for (const assocTarget of ...)` loops: the
relation is recorded only when the extracted target is non-null and a key
of `allNodes`. -/
def assocRelOf (allNodes : List (String × Node)) (propName : String)
    (desc : String) (isArray : Bool) (assocTarget : String) : List Relation :=
  match extractAssociationTarget assocTarget with
  | none => []
  | some target =>
    if mapHas allNodes target then
      [associationRel propName target assocTarget desc isArray]
    else []

/-- Push site 3: `x-association-target` on the property itself (a present
array is truthy even when empty, and an empty array pushes nothing, so the
truthiness guard and the loop coincide). -/
def assocRels (allNodes : List (String × Node)) (propName : String)
    (p : PropDef) : List Relation :=
  match p.assocTargets with
  | none => []
  | some l =>
    l.flatMap (assocRelOf allNodes propName (jsOr p.description "") false)

/-- Push site 4: `items['x-association-target']`, with description
`propDef.items?.description || propDef.description || ''`. -/
def itemsAssocRels (allNodes : List (String × Node)) (propName : String)
    (p : PropDef) : List Relation :=
  match p.items with
  | none => []
  | some it =>
    match it.assocTargets with
    | none => []
    | some l =>
      l.flatMap (assocRelOf allNodes propName
        (jsOr it.description (jsOr p.description "")) true)

/-- `extractRelations` (parser.js): in the source the relations are pushed
onto `sourceNode.relations` (initially empty) while iterating
`Object.entries(properties)`; here the pushed list is returned.  The four
push sites run in source order for each property. -/
def extractRelations (properties : List (String × PropDef))
    (allNodes : List (String × Node)) : List Relation :=
  properties.flatMap (fun pr =>
    refRel allNodes pr.1 pr.2 ++ itemsRefRel allNodes pr.1 pr.2 ++
      assocRels allNodes pr.1 pr.2 ++ itemsAssocRels allNodes pr.1 pr.2)

/-- The root node built by `parseSchema` (`relations` still empty;
`type` is the literal `'root'`). -/
def mkRootNode (schemaName : String) (schema : SchemaObj) : Node :=
  { id := schemaName
    name := jsOr schema.title ("ORD " ++ schemaName)
    type := "root"
    umsType := mapUmsType (jsOr schema.xUmsType "root") schemaName true
    description := jsOr schema.description ""
    properties := schema.properties.getD []
    required := schema.required.getD []
    recommended := schema.xRecommended.getD []
    relations := [] }

/-- The node built for one definition entry (`relations` still empty; the
`title` field of the source object is among the elided view-only fields). -/
def mkDefNode (name : String) (d : SchemaObj) : Node :=
  { id := name
    name := formatName name
    type := jsOr d.type "object"
    umsType := mapUmsType (jsOr d.xUmsType "default") name false
    description := jsOr d.description ""
    properties := d.properties.getD []
    required := d.required.getD []
    recommended := d.xRecommended.getD []
    relations := [] }

/-- The node map after the two `nodes.set` phases of `parseSchema` (root
first, then every definition; a definition named like the root overwrites
the root entry in place, as `Map.set` does). -/
def baseNodes (schema : SchemaDoc) (schemaName : String) :
    List (String × Node) :=
  schema.definitions.foldl (fun m pr => mapSet m pr.1 (mkDefNode pr.1 pr.2))
    (mapSet [] schemaName (mkRootNode schemaName schema.root))

/-- The relation-extraction phase for one map entry.  In the source the
lists are filled by in-place mutation: the root object gets
`extractRelations(rootNode, schema.properties || {}, nodes)` (a no-op on the
map when a definition overwrote the root entry, since the orphaned object is
mutated), and every other entry gets its definition's properties — which are
exactly the entry's own `properties` field.  The node map only ever has keys
queried during extraction, so passing the pre-extraction map is faithful. -/
def fillEntry (nodes0 : List (String × Node)) (rootId : String)
    (rootInDefs : Bool) (pr : String × Node) : String × Node :=
  if pr.1 == rootId && rootInDefs then pr
  else (pr.1,
    { pr.2 with relations := extractRelations pr.2.properties nodes0 })

/-- `parseSchema` (parser.js): build the node map, then extract relations
(from the root's properties for the root entry, from each definition's
properties for the rest). -/
def parseSchema (schema : SchemaDoc) (schemaName : String) :
    List (String × Node) :=
  (baseNodes schema schemaName).map
    (fillEntry (baseNodes schema schemaName) schemaName
      (schema.definitions.any (fun pr => pr.1 == schemaName)))

theorem fillEntry_key (n : List (String × Node)) (r : String) (b : Bool)
    (pr : String × Node) : (fillEntry n r b pr).1 = pr.1 := by
  unfold fillEntry
  split <;> rfl

theorem mapHas_map_fillEntry (n : List (String × Node)) (r : String)
    (b : Bool) (k : String) :
    ∀ l : List (String × Node),
      mapHas (l.map (fillEntry n r b)) k = mapHas l k := by
  intro l
  induction l with
  | nil => rfl
  | cons p rest ih =>
    show (((fillEntry n r b p).1 == k) ||
      mapHas (rest.map (fillEntry n r b)) k) = ((p.1 == k) || mapHas rest k)
    rw [fillEntry_key, ih]

theorem parseSchema_keys (schema : SchemaDoc) (schemaName : String)
    (k : String) :
    mapHas (parseSchema schema schemaName) k =
      mapHas (baseNodes schema schemaName) k := by
  unfold parseSchema
  exact mapHas_map_fillEntry (baseNodes schema schemaName) schemaName
    (schema.definitions.any (fun pr => pr.1 == schemaName)) k
    (baseNodes schema schemaName)

theorem mem_mapSet {m : List (String × α)} {k : String} {v : α}
    {pr : String × α} (h : pr ∈ mapSet m k v) : pr ∈ m ∨ pr = (k, v) := by
  unfold mapSet at h
  split at h
  · rw [List.mem_map] at h
    obtain ⟨q, hq, hEq⟩ := h
    by_cases hqk : (q.1 == k) = true
    · right
      rw [if_pos hqk] at hEq
      exact hEq.symm
    · left
      rw [if_neg hqk] at hEq
      exact hEq ▸ hq
  · rcases List.mem_append.mp h with h1 | h2
    · exact Or.inl h1
    · exact Or.inr (by simpa using h2)

theorem mem_baseNodes_relations (schema : SchemaDoc) (schemaName : String) :
    ∀ pr ∈ baseNodes schema schemaName, pr.2.relations = [] := by
  unfold baseNodes
  have hstep : ∀ (defs : List (String × SchemaObj))
      (init : List (String × Node)),
      (∀ pr ∈ init, pr.2.relations = []) →
      ∀ pr ∈ defs.foldl
        (fun m pr => mapSet m pr.1 (mkDefNode pr.1 pr.2)) init,
        pr.2.relations = [] := by
    intro defs
    induction defs with
    | nil =>
      intro init h pr hpr
      exact h pr hpr
    | cons d rest ih =>
      intro init h pr hpr
      refine ih _ ?_ pr hpr
      intro q hq
      rcases mem_mapSet hq with h1 | rfl
      · exact h q h1
      · rfl
  refine hstep _ _ ?_
  intro pr hpr
  rcases mem_mapSet hpr with h1 | rfl
  · exact absurd h1 (List.not_mem_nil pr)
  · rfl

theorem refRel_target {allNodes : List (String × Node)} {pn : String}
    {p : PropDef} {r : Relation} (h : r ∈ refRel allNodes pn p) :
    mapHas allNodes r.target = true := by
  unfold refRel at h
  split at h
  · exact absurd h (List.not_mem_nil r)
  · split at h
    · exact absurd h (List.not_mem_nil r)
    · split at h
      · exact absurd h (List.not_mem_nil r)
      · split at h
        next htgt =>
          rw [List.mem_singleton] at h
          subst h
          exact htgt
        next => exact absurd h (List.not_mem_nil r)

theorem itemsRefRel_target {allNodes : List (String × Node)} {pn : String}
    {p : PropDef} {r : Relation} (h : r ∈ itemsRefRel allNodes pn p) :
    mapHas allNodes r.target = true := by
  unfold itemsRefRel at h
  split at h
  · exact absurd h (List.not_mem_nil r)
  · split at h
    · exact absurd h (List.not_mem_nil r)
    · split at h
      · exact absurd h (List.not_mem_nil r)
      · split at h
        · exact absurd h (List.not_mem_nil r)
        · split at h
          next htgt =>
            rw [List.mem_singleton] at h
            subst h
            exact htgt
          next => exact absurd h (List.not_mem_nil r)

theorem assocRelOf_target {allNodes : List (String × Node)} {pn d a : String}
    {arr : Bool} {r : Relation} (h : r ∈ assocRelOf allNodes pn d arr a) :
    mapHas allNodes r.target = true := by
  unfold assocRelOf at h
  split at h
  · exact absurd h (List.not_mem_nil r)
  · split at h
    next htgt =>
      rw [List.mem_singleton] at h
      subst h
      exact htgt
    next => exact absurd h (List.not_mem_nil r)

theorem assocRels_target {allNodes : List (String × Node)} {pn : String}
    {p : PropDef} {r : Relation} (h : r ∈ assocRels allNodes pn p) :
    mapHas allNodes r.target = true := by
  unfold assocRels at h
  split at h
  · exact absurd h (List.not_mem_nil r)
  · rw [List.mem_flatMap] at h
    obtain ⟨a, _, ha⟩ := h
    exact assocRelOf_target ha

theorem itemsAssocRels_target {allNodes : List (String × Node)} {pn : String}
    {p : PropDef} {r : Relation} (h : r ∈ itemsAssocRels allNodes pn p) :
    mapHas allNodes r.target = true := by
  unfold itemsAssocRels at h
  split at h
  · exact absurd h (List.not_mem_nil r)
  · split at h
    · exact absurd h (List.not_mem_nil r)
    · rw [List.mem_flatMap] at h
      obtain ⟨a, _, ha⟩ := h
      exact assocRelOf_target ha

theorem extractRelations_target {props : List (String × PropDef)}
    {allNodes : List (String × Node)} {r : Relation}
    (h : r ∈ extractRelations props allNodes) :
    mapHas allNodes r.target = true := by
  unfold extractRelations at h
  rw [List.mem_flatMap] at h
  obtain ⟨pr, _, hr⟩ := h
  rcases List.mem_append.mp hr with hr1 | hr4
  · rcases List.mem_append.mp hr1 with hr2 | hr3
    · rcases List.mem_append.mp hr2 with h1 | h2
      · exact refRel_target h1
      · exact itemsRefRel_target h2
    · exact assocRels_target hr3
  · exact itemsAssocRels_target hr4

/-- C6: every relation on any node returned by `parseSchema` has a target
that is a key of the returned node map: each of the four push sites of
`extractRelations` is guarded by `allNodes.has(target)`, the node map's key
set never changes after the `nodes.set` phase, and dangling `$ref` /
`x-association-target` references produce no Relation object. -/
theorem parseSchema_relation_targets_exist (schema : SchemaDoc)
    (schemaName : String) :
    ∀ entry ∈ parseSchema schema schemaName, ∀ r ∈ entry.2.relations,
      mapHas (parseSchema schema schemaName) r.target = true := by
  intro entry hentry r hr
  rw [parseSchema_keys]
  unfold parseSchema at hentry
  rw [List.mem_map] at hentry
  obtain ⟨pr, hpr, hfe⟩ := hentry
  rw [← hfe] at hr
  unfold fillEntry at hr
  split at hr
  · rw [mem_baseNodes_relations schema schemaName pr hpr] at hr
    exact absurd hr (List.not_mem_nil r)
  · exact extractRelations_target hr

/-- Concrete document for the C6 witness: a root with one `$ref` property
pointing at one definition. -/
def c6Doc : SchemaDoc :=
  { root :=
      { title := some "ORD Document"
        type := some "object"
        description := none
        xUmsType := none
        properties := some [("describedSystemInstance",
          { ref := some "#/definitions/SystemInstance"
            items := none
            assocTargets := none
            description := some "The system instance" })]
        required := none
        xRecommended := none }
    definitions := [("SystemInstance",
      { title := none
        type := some "object"
        description := none
        xUmsType := none
        properties := some []
        required := none
        xRecommended := none })] }

def c6Entry : String × Node :=
  (parseSchema c6Doc "Document").headD
    ("", mkDefNode ""
      { title := none, type := none, description := none, xUmsType := none,
        properties := none, required := none, xRecommended := none })

def c6Rel : Relation :=
  { type := "composition", target := "SystemInstance",
    property := "describedSystemInstance", isArray := false, via := none,
    description := "The system instance" }

/-- Witness for C6 on the concrete document. -/
theorem parseSchema_relation_targets_exist_witness :
    c6Entry ∈ parseSchema c6Doc "Document" ∧
      c6Rel ∈ c6Entry.2.relations ∧
      mapHas (parseSchema c6Doc "Document") c6Rel.target = true :=
  ⟨by decide, by decide,
    parseSchema_relation_targets_exist c6Doc "Document" c6Entry (by decide)
      c6Rel (by decide)⟩

/-! ### Search (search.js: performSearch) -/

/-- ASCII lowering, modeling `String.prototype.toLowerCase` on the ASCII
names occurring here. -/
def jsToLower (s : String) : String :=
  String.mk (s.toList.map Char.toLower)

/-- `hay.includes(needle)` scanning: substring occurrence test. -/
def charsContainsSub (needle : List Char) : List Char → Bool
  | [] => needle.isEmpty
  | c :: rest => startsWithChars needle (c :: rest) || charsContainsSub needle rest

/-- JavaScript `hay.includes(sub)`. -/
def containsSub (hay sub : String) : Bool :=
  charsContainsSub sub.toList hay.toList

/-- A search result object as built by `performSearch` (search.js).  The
`color` field (entity results) and the rendering of `meta`/`name` are view
data consumed only by `renderResults`; `color` is elided.  Entity results
carry no `nodeId`/`nodeName`/`relation` fields (undefined), modeled as
`none`. -/
structure SearchResult where
  type : String
  id : String
  name : String
  nodeId : Option String
  nodeName : Option String
  relation : Option Relation
  meta : String
deriving DecidableEq

/-- The entity result pushed for a node whose lowercased name or id
contains the query (`meta` is the id when it differs from the name, else
the description). -/
def entityResult (query : String) (id : String) (node : Node) :
    List SearchResult :=
  if containsSub (jsToLower node.name) query ||
      containsSub (jsToLower id) query then
    [{ type := "entity", id := id, name := node.name, nodeId := none,
       nodeName := none, relation := none,
       meta := if id == node.name then node.description else id }]
  else []

/-- The property/relation result pushed for a matching property name:
`relation` is the node's relation with that property name if any, and the
result type is `relation` exactly when one exists. -/
def propResult (id : String) (node : Node) (propName : String)
    (p : PropDef) : SearchResult :=
  { type :=
      match node.relations.find? (fun r => r.property == propName) with
      | some _ => "relation"
      | none => "property"
    id := id ++ "-" ++ propName
    name := node.name ++ "." ++ propName
    nodeId := some id
    nodeName := some node.name
    relation := node.relations.find? (fun r => r.property == propName)
    meta := jsOr p.description "" }

/-- The property results of one node (the `if (node.properties)` guard is
always-truthy on parsed nodes, whose `properties` is at least `{}`). -/
def propResults (query : String) (id : String) (node : Node) :
    List SearchResult :=
  node.properties.flatMap (fun pr =>
    if containsSub (jsToLower pr.1) query then [propResult id node pr.1 pr.2]
    else [])

/-- All results pushed while visiting one `state.nodes` entry, in push
order: the entity result (if matching), then the property results. -/
def nodeResults (query : String) (id : String) (node : Node) :
    List SearchResult :=
  entityResult query id node ++ propResults query id node

/-- The unsorted `results` array of `performSearch`. -/
def searchItems (query : String) (s : State) : List SearchResult :=
  s.nodes.flatMap (fun pr => nodeResults query pr.1 pr.2)

/-- The `typeWeight` object literal of the sort comparator; results only
ever carry the three listed type strings. -/
def typeWeight (t : String) : Int :=
  if t == "entity" then 1 else if t == "relation" then 2 else 3

def lowerName (r : SearchResult) : String :=
  jsToLower r.name

/-- The match-relevant part: the full lowercased name for entities, the
part after the last `.` otherwise (`aLower.split('.').pop()`; the split of
a string is never empty, so the default is unreachable). -/
def matchPart (r : SearchResult) : String :=
  if r.type == "entity" then lowerName r
  else (jsSplit '.' (lowerName r)).getLastD ""

/-- `aMatchPart.startsWith(query)`. -/
def prefixHit (query : String) (r : SearchResult) : Bool :=
  startsWithChars query.toList (matchPart r).toList

/-- Code-point comparison of character lists, the ASCII model of
`a.localeCompare(b)`'s sign. -/
def cmpChars : List Char → List Char → Int
  | [], [] => 0
  | [], _ :: _ => -1
  | _ :: _, [] => 1
  | a :: l1, b :: l2 =>
    if a.toNat < b.toNat then -1
    else if b.toNat < a.toNat then 1
    else cmpChars l1 l2

def localeCmp (a b : String) : Int :=
  cmpChars a.toList b.toList

/-- The last two returns of the comparator: the length difference when the
lowercased names differ in length, else `localeCompare`. -/
def tailCmp (a b : SearchResult) : Int :=
  if (lowerName a).length ≠ (lowerName b).length then
    ((lowerName a).length : Int) - ((lowerName b).length : Int)
  else localeCmp (lowerName a) (lowerName b)

/-- The sort comparator of `performSearch` (search.js lines 119-143). -/
def searchCmp (query : String) (a b : SearchResult) : Int :=
  if typeWeight a.type ≠ typeWeight b.type then
    typeWeight a.type - typeWeight b.type
  else if prefixHit query a && !(prefixHit query b) then -1
  else if !(prefixHit query a) && prefixHit query b then 1
  else tailCmp a b

/-- Insertion into a comparator-sorted list, before the first element not
strictly preceding `x` (preserving the original order of ties). -/
def insertByCmp (cmp : α → α → Int) (x : α) : List α → List α
  | [] => [x]
  | y :: ys => if cmp y x < 0 then y :: insertByCmp cmp x ys else x :: y :: ys

/-- `Array.prototype.sort(comparator)`: the engine's algorithm is
unspecified but observably (ES2019+) a stable sort by the comparator,
embedded as stable insertion sort. -/
def sortByCmp (cmp : α → α → Int) : List α → List α
  | [] => []
  | x :: xs => insertByCmp cmp x (sortByCmp cmp xs)

/-- `performSearch` (search.js): collect, sort, cap at 50. -/
def performSearch (query : String) (s : State) : List SearchResult :=
  (sortByCmp (searchCmp query) (searchItems query s)).take 50

/-- The four-key ranking as worded in the specification: type weight, then
prefix match of the match-relevant part, then overall name length, then
lexicographic order.  This is the spec-side relation compared against the
comparator `searchCmp` from the source. -/
def specRankLE (query : String) (a b : SearchResult) : Prop :=
  typeWeight a.type < typeWeight b.type ∨
    (typeWeight a.type = typeWeight b.type ∧
      ((prefixHit query a = true ∧ prefixHit query b = false) ∨
        (prefixHit query a = prefixHit query b ∧
          ((lowerName a).length < (lowerName b).length ∨
            ((lowerName a).length = (lowerName b).length ∧
              localeCmp (lowerName a) (lowerName b) ≤ 0)))))

theorem cmpChars_flip :
    ∀ l1 l2 : List Char, 0 ≤ cmpChars l1 l2 → cmpChars l2 l1 ≤ 0 := by
  intro l1
  induction l1 with
  | nil =>
    intro l2 h
    cases l2 with
    | nil => simp [cmpChars]
    | cons c cs => simp [cmpChars] at h
  | cons a t1 ih =>
    intro l2 h
    cases l2 with
    | nil => simp [cmpChars]
    | cons b t2 =>
      unfold cmpChars at h ⊢
      by_cases h1 : a.toNat < b.toNat
      · rw [if_pos h1] at h
        omega
      · rw [if_neg h1] at h
        by_cases h2 : b.toNat < a.toNat
        · rw [if_pos h2]
          omega
        · rw [if_neg h2] at h
          rw [if_neg h2, if_neg h1]
          exact ih t2 h

theorem cmpChars_le_trans :
    ∀ l1 l2 l3 : List Char, cmpChars l1 l2 ≤ 0 → cmpChars l2 l3 ≤ 0 →
      cmpChars l1 l3 ≤ 0 := by
  intro l1
  induction l1 with
  | nil =>
    intro l2 l3 _ _
    cases l3 <;> simp [cmpChars]
  | cons a t1 ih =>
    intro l2 l3 h12 h23
    cases l2 with
    | nil => simp [cmpChars] at h12
    | cons b t2 =>
      cases l3 with
      | nil => simp [cmpChars] at h23
      | cons c t3 =>
        unfold cmpChars at h12 h23 ⊢
        by_cases hab : a.toNat < b.toNat
        · rw [if_pos hab] at h12
          by_cases hbc : b.toNat < c.toNat
          · rw [if_pos (show a.toNat < c.toNat by omega)]
            omega
          · rw [if_neg hbc] at h23
            by_cases hcb : c.toNat < b.toNat
            · rw [if_pos hcb] at h23
              omega
            · rw [if_pos (show a.toNat < c.toNat by omega)]
              omega
        · rw [if_neg hab] at h12
          by_cases hba : b.toNat < a.toNat
          · rw [if_pos hba] at h12
            omega
          · rw [if_neg hba] at h12
            by_cases hbc : b.toNat < c.toNat
            · rw [if_pos (show a.toNat < c.toNat by omega)]
              omega
            · rw [if_neg hbc] at h23
              by_cases hcb : c.toNat < b.toNat
              · rw [if_pos hcb] at h23
                omega
              · rw [if_neg hcb] at h23
                rw [if_neg (show ¬a.toNat < c.toNat by omega),
                  if_neg (show ¬c.toNat < a.toNat by omega)]
                exact ih t2 t3 h12 h23

theorem tailCmp_flip (a b : SearchResult) (h : 0 ≤ tailCmp a b) :
    tailCmp b a ≤ 0 := by
  unfold tailCmp at h ⊢
  by_cases hl : (lowerName a).length ≠ (lowerName b).length
  · rw [if_pos hl] at h
    rw [if_pos (fun e => hl e.symm)]
    omega
  · have hleq := not_not.mp hl
    rw [if_neg hl] at h
    rw [if_neg (show ¬(lowerName b).length ≠ (lowerName a).length from
      fun e => e hleq.symm)]
    exact cmpChars_flip _ _ h

theorem tailCmp_le_trans (a b c : SearchResult) (h1 : tailCmp a b ≤ 0)
    (h2 : tailCmp b c ≤ 0) : tailCmp a c ≤ 0 := by
  unfold tailCmp at h1 h2 ⊢
  by_cases hab : (lowerName a).length ≠ (lowerName b).length
  · rw [if_pos hab] at h1
    by_cases hbc : (lowerName b).length ≠ (lowerName c).length
    · rw [if_pos hbc] at h2
      rw [if_pos (show (lowerName a).length ≠ (lowerName c).length by omega)]
      omega
    · have hbceq := not_not.mp hbc
      rw [if_pos (show (lowerName a).length ≠ (lowerName c).length by omega)]
      omega
  · have habeq := not_not.mp hab
    rw [if_neg hab] at h1
    by_cases hbc : (lowerName b).length ≠ (lowerName c).length
    · rw [if_pos hbc] at h2
      rw [if_pos (show (lowerName a).length ≠ (lowerName c).length by omega)]
      omega
    · have hbceq := not_not.mp hbc
      rw [if_neg hbc] at h2
      rw [if_neg (show ¬(lowerName a).length ≠ (lowerName c).length by omega)]
      exact cmpChars_le_trans _ _ _ h1 h2

theorem searchCmp_flip (query : String) (a b : SearchResult)
    (h : 0 ≤ searchCmp query a b) : searchCmp query b a ≤ 0 := by
  unfold searchCmp at h ⊢
  by_cases hw : typeWeight a.type ≠ typeWeight b.type
  · rw [if_pos hw] at h
    rw [if_pos (fun e => hw e.symm)]
    omega
  · have hweq := not_not.mp hw
    rw [if_neg hw] at h
    rw [if_neg (show ¬typeWeight b.type ≠ typeWeight a.type from
      fun e => e hweq.symm)]
    rcases Bool.eq_false_or_eq_true (prefixHit query a) with hpa | hpa <;>
      rcases Bool.eq_false_or_eq_true (prefixHit query b) with hpb | hpb <;>
      rw [hpa, hpb] at h ⊢
    · rw [if_neg (by decide), if_neg (by decide)] at h
      rw [if_neg (by decide), if_neg (by decide)]
      exact tailCmp_flip a b h
    · rw [if_pos (by decide)] at h
      exact absurd h (by decide)
    · rw [if_pos (by decide)]
      decide
    · rw [if_neg (by decide), if_neg (by decide)] at h
      rw [if_neg (by decide), if_neg (by decide)]
      exact tailCmp_flip a b h

theorem searchCmp_le_trans (query : String) (a b c : SearchResult)
    (h1 : searchCmp query a b ≤ 0) (h2 : searchCmp query b c ≤ 0) :
    searchCmp query a c ≤ 0 := by
  unfold searchCmp at h1 h2 ⊢
  by_cases hab : typeWeight a.type ≠ typeWeight b.type
  · rw [if_pos hab] at h1
    by_cases hbc : typeWeight b.type ≠ typeWeight c.type
    · rw [if_pos hbc] at h2
      rw [if_pos (show typeWeight a.type ≠ typeWeight c.type by omega)]
      omega
    · have hbceq := not_not.mp hbc
      rw [if_pos (show typeWeight a.type ≠ typeWeight c.type by omega)]
      omega
  · have habeq := not_not.mp hab
    rw [if_neg hab] at h1
    by_cases hbc : typeWeight b.type ≠ typeWeight c.type
    · rw [if_pos hbc] at h2
      rw [if_pos (show typeWeight a.type ≠ typeWeight c.type by omega)]
      omega
    · have hbceq := not_not.mp hbc
      rw [if_neg hbc] at h2
      rw [if_neg (show ¬typeWeight a.type ≠ typeWeight c.type by omega)]
      rcases Bool.eq_false_or_eq_true (prefixHit query a) with hpa | hpa <;>
        rcases Bool.eq_false_or_eq_true (prefixHit query b) with hpb | hpb <;>
        rcases Bool.eq_false_or_eq_true (prefixHit query c) with hpc | hpc <;>
        rw [hpa, hpb] at h1 <;> rw [hpb, hpc] at h2 <;> rw [hpa, hpc]
      · rw [if_neg (by decide), if_neg (by decide)] at h1
        rw [if_neg (by decide), if_neg (by decide)] at h2
        rw [if_neg (by decide), if_neg (by decide)]
        exact tailCmp_le_trans a b c h1 h2
      · rw [if_pos (by decide)]
        decide
      · rw [if_neg (by decide), if_pos (by decide)] at h2
        exact absurd h2 (by decide)
      · rw [if_pos (by decide)]
        decide
      · rw [if_neg (by decide), if_pos (by decide)] at h1
        exact absurd h1 (by decide)
      · rw [if_neg (by decide), if_pos (by decide)] at h1
        exact absurd h1 (by decide)
      · rw [if_neg (by decide), if_pos (by decide)] at h2
        exact absurd h2 (by decide)
      · rw [if_neg (by decide), if_neg (by decide)] at h1
        rw [if_neg (by decide), if_neg (by decide)] at h2
        rw [if_neg (by decide), if_neg (by decide)]
        exact tailCmp_le_trans a b c h1 h2

theorem mem_insertByCmp {cmp : α → α → Int} {x z : α} :
    ∀ {l : List α}, z ∈ insertByCmp cmp x l → z = x ∨ z ∈ l := by
  intro l
  induction l with
  | nil =>
    intro h
    exact Or.inl (List.mem_singleton.mp h)
  | cons y ys ih =>
    intro h
    unfold insertByCmp at h
    split at h
    · rcases List.mem_cons.mp h with rfl | h2
      · exact Or.inr (List.mem_cons_self _ _)
      · rcases ih h2 with h3 | h4
        · exact Or.inl h3
        · exact Or.inr (List.mem_cons_of_mem _ h4)
    · rcases List.mem_cons.mp h with rfl | h2
      · exact Or.inl rfl
      · exact Or.inr h2

theorem pairwise_insertByCmp {cmp : α → α → Int}
    (fl : ∀ a b, 0 ≤ cmp a b → cmp b a ≤ 0)
    (tr : ∀ a b c, cmp a b ≤ 0 → cmp b c ≤ 0 → cmp a c ≤ 0) (x : α) :
    ∀ l : List α, l.Pairwise (fun a b => cmp a b ≤ 0) →
      (insertByCmp cmp x l).Pairwise (fun a b => cmp a b ≤ 0) := by
  intro l
  induction l with
  | nil =>
    intro _
    exact List.pairwise_singleton _ _
  | cons y ys ih =>
    intro h
    obtain ⟨hy, hys⟩ := List.pairwise_cons.mp h
    unfold insertByCmp
    split
    next hlt =>
      refine List.pairwise_cons.mpr ⟨?_, ih hys⟩
      intro z hz
      rcases mem_insertByCmp hz with rfl | h2
      · omega
      · exact hy z h2
    next hnlt =>
      refine List.pairwise_cons.mpr ⟨?_, h⟩
      intro z hz
      have hxy : cmp x y ≤ 0 := fl y x (by omega)
      rcases List.mem_cons.mp hz with rfl | h2
      · exact hxy
      · exact tr x y z hxy (hy z h2)

theorem pairwise_sortByCmp {cmp : α → α → Int}
    (fl : ∀ a b, 0 ≤ cmp a b → cmp b a ≤ 0)
    (tr : ∀ a b c, cmp a b ≤ 0 → cmp b c ≤ 0 → cmp a c ≤ 0) :
    ∀ l : List α, (sortByCmp cmp l).Pairwise (fun a b => cmp a b ≤ 0) := by
  intro l
  induction l with
  | nil => exact List.Pairwise.nil
  | cons x xs ih => exact pairwise_insertByCmp fl tr x _ ih

theorem tail_spec {a b : SearchResult} (h : tailCmp a b ≤ 0) :
    (lowerName a).length < (lowerName b).length ∨
      ((lowerName a).length = (lowerName b).length ∧
        localeCmp (lowerName a) (lowerName b) ≤ 0) := by
  unfold tailCmp at h
  by_cases hl : (lowerName a).length ≠ (lowerName b).length
  · rw [if_pos hl] at h
    left
    omega
  · rw [if_neg hl] at h
    exact Or.inr ⟨not_not.mp hl, h⟩

/-- The comparator refines the spec's four-key ranking: a non-positive
comparison implies the spec relation. -/
theorem specRank_of_searchCmp (query : String) (a b : SearchResult)
    (h : searchCmp query a b ≤ 0) : specRankLE query a b := by
  unfold searchCmp at h
  unfold specRankLE
  by_cases hw : typeWeight a.type ≠ typeWeight b.type
  · rw [if_pos hw] at h
    left
    omega
  · have hweq := not_not.mp hw
    rw [if_neg hw] at h
    refine Or.inr ⟨hweq, ?_⟩
    rcases Bool.eq_false_or_eq_true (prefixHit query a) with hpa | hpa <;>
      rcases Bool.eq_false_or_eq_true (prefixHit query b) with hpb | hpb <;>
      rw [hpa, hpb] at h
    · rw [if_neg (by decide), if_neg (by decide)] at h
      exact Or.inr ⟨hpa.trans hpb.symm, tail_spec h⟩
    · exact Or.inl ⟨hpa, hpb⟩
    · rw [if_neg (by decide), if_pos (by decide)] at h
      exact absurd h (by decide)
    · rw [if_neg (by decide), if_neg (by decide)] at h
      exact Or.inr ⟨hpa.trans hpb.symm, tail_spec h⟩

/-- Concrete node map for the C9 example: definitions `Package` and
`PackageLink` as the parser would build them. -/
def c9State : State :=
  { nodes :=
      [("Package", mkDefNode "Package"
          { title := none, type := some "object", description := none,
            xUmsType := none, properties := some [], required := none,
            xRecommended := none }),
        ("PackageLink", mkDefNode "PackageLink"
          { title := none, type := some "object", description := none,
            xUmsType := none, properties := some [], required := none,
            xRecommended := none })]
    displayedNodes := []
    displayedLinks := []
    selectedNode := none
    selectedLink := none
    currentSchemaName := "Document" }

def c9PackageResult : SearchResult :=
  { type := "entity", id := "Package", name := "Package", nodeId := none,
    nodeName := none, relation := none, meta := "" }

def c9PackageLinkResult : SearchResult :=
  { type := "entity", id := "PackageLink", name := "Package Link",
    nodeId := none, nodeName := none, relation := none,
    meta := "PackageLink" }

/-- C9: for every state and query (the callers only invoke the search for
queries of length at least 2), `performSearch` returns at most 50 results,
pairwise ordered by the four ranking keys (type weight, then prefix match
of the match-relevant part, then overall name length, then lexicographic);
and on nodes `Package`/`PackageLink` with query `pack`, `Package` ranks
first. -/
theorem performSearch_ranked :
    (∀ (s : State) (query : String), 2 ≤ query.length →
        (performSearch query s).length ≤ 50 ∧
          (performSearch query s).Pairwise (specRankLE query)) ∧
      performSearch "pack" c9State = [c9PackageResult, c9PackageLinkResult] := by
  constructor
  · intro s query _
    constructor
    · exact List.length_take_le 50 _
    · have hs := pairwise_sortByCmp (searchCmp_flip query)
        (searchCmp_le_trans query) (searchItems query s)
      have ht := hs.sublist (List.take_sublist 50 _)
      exact ht.imp (fun h => specRank_of_searchCmp query _ _ h)
  · decide

/-- Witness for C9 on the concrete Package/PackageLink state. -/
theorem performSearch_ranked_witness :
    2 ≤ ("pack" : String).length ∧
      (performSearch "pack" c9State).length ≤ 50 ∧
      (performSearch "pack" c9State).Pairwise (specRankLE "pack") :=
  ⟨by decide, performSearch_ranked.1 c9State "pack" (by decide)⟩

end SchemaViewer
